import Mathlib

/-!
Verification of the constant-folding pass in
`src/frontends/common/constantFolding.cpp` (`P4::DoConstantFolding`).

The expression fragment visited by the pass is embedded shallowly:
expressions are a Lean inductive, the per-node `postorder` handlers are
Lean functions on it, and the externally driven post-order traversal is
the recursive function `fold`.  Arbitrary-precision integers (`mpz_class`)
are `Int`; the GMP bitwise operators on negative numbers use the infinite
two's-complement convention, which is exactly the convention of
`Int.land` / `Int.lor` / `Int.xor` / `Int.shiftRight`.

Modelling decisions, applying to the whole file:

* The embedding covers the pass run with `refMap == nullptr` (so the
  `PathExpression` handler returns its node unchanged and declarations
  play no role) and with no enum types in scope.  Under these conditions
  the constant memo of the C++ pass is write-only: its keys are node
  identities (pointers) of nodes that have been replaced in the tree, and
  an unshared input tree never presents such a key to `get(constants, e)`
  again.  `getConstant` is therefore embedded without the initial memo
  lookup and without the `EnumInstance::resolve` branch, and the memo is
  carried as the list of key/value pairs that `setConstant` emplaced.
* Diagnostics (`::error`, `::warning`) go to an external sink; the
  embedding counts them (`errs`, `warns`).  A `BUG`/`BUG_CHECK` failure
  or a null-pointer dereference aborts the program; the embedding models
  an abort as `Except.error` with a describing message.
* `IR::Constant` carries a value, a type, a print base and the `wasCast`
  flag; the four-argument constructor leaves `wasCast = false`.
  Source positions (`srcInfo`), which every handler merely copies, are
  not represented.
-/

namespace ConstantFolding

/-- Types the pass inspects: `IR::Type_Bits` (width and signedness),
`IR::Type_InfInt`, and `IR::Type_StructLike` (whose fields live in the
external type map and are not needed by the embedded handlers). -/
inductive Typ where
  | bits (size : Nat) (isSigned : Bool)
  | infInt
  | structLike
  deriving DecidableEq

/-- The binary operators that `DoConstantFolding` routes through
`binary`/`compare`: `IR::Add`, `Sub`, `Mul`, `Div`, `Mod`, `BAnd`,
`BOr`, `BXor`, `Lss`, `Grt`, `Leq`, `Geq`, `Equ`, `Neq`. -/
inductive BinOp where
  | add | sub | mul | div | mod | band | bor | bxor
  | lss | grt | leq | geq | equ | neq
  deriving DecidableEq

/-- The expression grammar observed by the pass (section of `IR::Expression`).
`shift` covers `IR::Shl` (`isShl = true`) and `IR::Shr`; `binop` covers the
operators of `BinOp`; a select case `(keyset, state)` is a pair. -/
inductive Expr where
  | constant (value : Int) (typ : Typ) (base : Nat) (wasCast : Bool)
  | boolLiteral (value : Bool)
  | pathExpression (name : String)
  | listExpression (components : List Expr)
  | defaultExpression
  | range (left right : Expr)
  | mask (left right : Expr)
  | neg (expr : Expr)
  | cmpl (expr : Expr)
  | lnot (expr : Expr)
  | binop (op : BinOp) (left right : Expr)
  | shift (isShl : Bool) (left right : Expr)
  | land (left right : Expr)
  | lor (left right : Expr)
  | slice (e0 e1 e2 : Expr)
  | concat (left right : Expr)
  | cast (typ : Typ) (expr : Expr)
  | selectExpression (select : Expr) (cases : List (Expr × Expr))

/-- `DoConstantFolding::Result`, the answer of `setContains`. -/
inductive Result where
  | Yes | No | DontKnow
  deriving DecidableEq

/-- Construction parameters of the pass: `typesKnown` (a type map was
supplied) and `warnings` (non-fatal diagnostics enabled). -/
structure Cfg where
  typesKnown : Bool
  warnings : Bool

/-- Side effects accumulated by a (sub)computation of the pass: the
key/value pairs `setConstant` emplaced into the constant memo, in order,
and the number of `::error` and `::warning` diagnostics emitted. -/
structure St where
  memo : List (Expr × Expr)
  errs : Nat
  warns : Nat

/-- The empty side-effect record. -/
def St.empty : St := ⟨[], 0, 0⟩

/-- Sequential composition of side effects. -/
def St.app (a b : St) : St := ⟨a.memo ++ b.memo, a.errs + b.errs, a.warns + b.warns⟩

/-- Outcome of one `postorder` handler: the node returned to the visitor,
whether the handler called `setConstant` on it (always with the returned
expression as the recorded value), and the diagnostics it emitted. -/
structure HOut where
  result : Expr
  memoized : Bool
  errs : Nat
  warns : Nat

/-- Fully-constant expressions: a `Constant`, a `BoolLiteral`, or a
`ListExpression` all of whose components are fully constant.  This is the
success condition of `DoConstantFolding::getConstant` (see its embedding
below). -/
def isCst : Expr → Bool
  | .constant _ _ _ _ => true
  | .boolLiteral _ => true
  | .listExpression comps => goList comps
  | _ => false
where goList : List Expr → Bool
  | [] => true
  | e :: es => isCst e && goList es

/-- `DoConstantFolding::getConstant` (constantFolding.cpp:24-47): returns
the constant form of an expression, or nothing.  The initial memo lookup
and the enum-instance branch are omitted per the modelling note at the
top of the file; in every success branch the function returns its
argument itself, so here `getConstant e = some e` iff `isCst e`. -/
def getConstant (expr : Expr) : Option Expr :=
  if isCst expr then some expr else none

/-- The GMP shift `Util::shift_left` used at constantFolding.cpp:520,583.
Modelled from the spec: `lib/gmputil.h` is not part of the repository
snapshot; the spec (section 9) states that `<<` acts on the unbounded
integer, i.e. multiplies by a power of two. -/
def shift_left (v : Int) (n : Nat) : Int := v * 2 ^ n

/-- The GMP shift `Util::shift_right` used at constantFolding.cpp:585.
Modelled from the spec: an arithmetic right shift of the unbounded
integer, i.e. `Int.shiftRight`, which floors towards negative infinity
exactly as GMP does. -/
def shift_right (v : Int) (n : Nat) : Int := v >>> n

/-- Whether a `BinOp` is an `IR::Operation_Relation`
(`Equ`, `Neq`, `Lss`, `Leq`, `Grt`, `Geq`). -/
def BinOp.isRelation : BinOp → Bool
  | .lss | .grt | .leq | .geq | .equ | .neq => true
  | _ => false

/-- The lambda each `postorder` caller passes to `binary`
(constantFolding.cpp:163-236): the computed `mpz_class` value together
with the number of `::error` diagnostics the lambda itself emits
(non-zero only for `Div`/`Mod` on a negative operand or a zero divisor,
which report and yield the placeholder value 0). -/
def opValue : BinOp → Int → Int → Int × Nat
  | .add, a, b => (a + b, 0)
  | .sub, a, b => (a - b, 0)
  | .mul, a, b => (a * b, 0)
  | .band, a, b => (Int.land a b, 0)
  | .bor, a, b => (Int.lor a b, 0)
  | .bxor, a, b => (Int.xor a b, 0)
  | .lss, a, b => (if a < b then 1 else 0, 0)
  | .grt, a, b => (if a > b then 1 else 0, 0)
  | .leq, a, b => (if a ≤ b then 1 else 0, 0)
  | .geq, a, b => (if a ≥ b then 1 else 0, 0)
  | .equ, a, b => (if a = b then 1 else 0, 0)
  | .neq, a, b => (if a = b then 0 else 1, 0)
  | .div, a, b =>
      if a < 0 ∨ b < 0 then (0, 1)
      else if b = 0 then (0, 1)
      else (a / b, 0)
  | .mod, a, b =>
      if a < 0 ∨ b < 0 then (0, 1)
      else if b = 0 then (0, 1)
      else (a % b, 0)

/-- `DoConstantFolding::postorder(IR::Neg*)` (constantFolding.cpp:131-156),
acting on the node `.neg e` whose child `e` the visitor has already
folded.  On an `InfInt` constant a new constant is returned without
`setConstant` (line 143); on a `Bits` constant the negated constant is
built with `wasCast = true` and memoized; otherwise an error. -/
def postorderNeg (cfg : Cfg) (e : Expr) : HOut :=
  match getConstant e with
  | none => ⟨.neg e, false, 0, 0⟩
  | some op =>
    match op with
    | .constant v t b _ =>
      match t with
      | .infInt => ⟨.constant (-v) t b false, false, 0, 0⟩
      | .bits _ _ => ⟨.constant (-v) t b true, true, 0, 0⟩
      | _ =>
        if cfg.typesKnown then ⟨.neg e, false, 1, 0⟩ else ⟨.neg e, false, 0, 0⟩
    | _ => ⟨.neg e, false, 1, 0⟩

/-- `DoConstantFolding::postorder(IR::Cmpl*)` (constantFolding.cpp:102-129).
`~` on GMP integers is the infinite two's complement, `~v = -v - 1`.
Complement of an `InfInt` is an error (unknown width); of a non-`Bits`
type an error only when types are known. -/
def postorderCmpl (cfg : Cfg) (e : Expr) : HOut :=
  match getConstant e with
  | none => ⟨.cmpl e, false, 0, 0⟩
  | some op =>
    match op with
    | .constant v t b _ =>
      match t with
      | .infInt => ⟨.cmpl e, false, 1, 0⟩
      | .bits _ _ => ⟨.constant (-v - 1) t b true, true, 0, 0⟩
      | _ =>
        if cfg.typesKnown then ⟨.cmpl e, false, 1, 0⟩ else ⟨.cmpl e, false, 0, 0⟩
    | _ => ⟨.cmpl e, false, 1, 0⟩

/-- `DoConstantFolding::postorder(IR::LNot*)` (constantFolding.cpp:526-540). -/
def postorderLNot (e : Expr) : HOut :=
  match getConstant e with
  | none => ⟨.lnot e, false, 0, 0⟩
  | some op =>
    match op with
    | .boolLiteral b => ⟨.boolLiteral (!b), true, 0, 0⟩
    | _ => ⟨.lnot e, false, 1, 0⟩

/-- `DoConstantFolding::binary` (constantFolding.cpp:273-347).  The
`std::function` argument is represented by the `BinOp` tag of the node,
interpreted by `opValue`, which embeds each call site's lambda.  Note
that the source computes `value = func(...)` (line 298) before the type
checks, so a `Div`/`Mod` diagnostic from the lambda is emitted even when
a later type check makes the handler return the node unchanged. -/
def binary (cfg : Cfg) (op : BinOp) (el er : Expr) : HOut :=
  let node := Expr.binop op el er
  match getConstant el, getConstant er with
  | some eleft, some eright =>
    match eleft with
    | .constant lv lt lb _ =>
      match eright with
      | .constant rv rt _ _ =>
        let vf := opValue op lv rv
        match lt, rt with
        | .bits ls lsg, .bits rs rsg =>
          if ls = rs ∧ lsg = rsg then
            let result :=
              if op.isRelation then Expr.boolLiteral (vf.1 ≠ 0)
              else Expr.constant vf.1 (.bits rs rsg) lb true
            ⟨result, true, vf.2, 0⟩
          else ⟨node, false, vf.2 + 1, 0⟩
        | .infInt, .infInt =>
          let result :=
            if op.isRelation then Expr.boolLiteral (vf.1 ≠ 0)
            else Expr.constant vf.1 .infInt lb true
          ⟨result, true, vf.2, 0⟩
        | .infInt, .bits rs rsg =>
          -- left is cast to the right type (line 333); the cast keeps
          -- `left->base`, which the result uses anyway
          let result :=
            if op.isRelation then Expr.boolLiteral (vf.1 ≠ 0)
            else Expr.constant vf.1 (.bits rs rsg) lb true
          ⟨result, true, vf.2, 0⟩
        | .bits ls lsg, .infInt =>
          let result :=
            if op.isRelation then Expr.boolLiteral (vf.1 ≠ 0)
            else Expr.constant vf.1 (.bits ls lsg) lb true
          ⟨result, true, vf.2, 0⟩
        | .bits _ _, _ =>
          if cfg.typesKnown then ⟨node, false, vf.2 + 1, 0⟩ else ⟨node, false, vf.2, 0⟩
        | _, _ =>
          if cfg.typesKnown then ⟨node, false, vf.2 + 1, 0⟩ else ⟨node, false, vf.2, 0⟩
      | _ => ⟨node, false, 1, 0⟩
    | _ => ⟨node, false, 1, 0⟩
  | _, _ => ⟨node, false, 0, 0⟩

/-- `DoConstantFolding::compare` (constantFolding.cpp:246-271), the
handler of `IR::Equ` and `IR::Neq`: boolean operands are compared as
booleans, everything else is routed through `binary`. -/
def compare (cfg : Cfg) (op : BinOp) (el er : Expr) : HOut :=
  let node := Expr.binop op el er
  match getConstant el, getConstant er with
  | some eleft, some eright =>
    match eleft with
    | .boolLiteral lv =>
      match eright with
      | .boolLiteral rv =>
        ⟨.boolLiteral ((lv == rv) == (op == BinOp.equ)), true, 0, 0⟩
      | _ => ⟨node, false, 1, 0⟩
    | _ => binary cfg op el er
  | _, _ => ⟨node, false, 0, 0⟩

/-- `DoConstantFolding::shift` (constantFolding.cpp:542-589), the handler
of `IR::Shl` and `IR::Shr`.  A zero shift amount memoizes and returns the
left operand without requiring it to be constant; otherwise the left
operand must be an integer constant and the result keeps its type and
base (`wasCast` stays false: four-argument constructor, line 586). -/
def shiftHandler (cfg : Cfg) (isShl : Bool) (el er : Expr) : HOut :=
  let node := Expr.shift isShl el er
  match getConstant er with
  | none => ⟨node, false, 0, 0⟩
  | some right =>
    match right with
    | .constant rv _ _ _ =>
      if rv < 0 then ⟨node, false, 1, 0⟩
      else if rv = 0 then ⟨el, true, 0, 0⟩
      else
        match getConstant el with
        | none => ⟨node, false, 0, 0⟩
        | some left =>
          match left with
          | .constant lv lt lb _ =>
            let w : Nat :=
              match lt with
              | .bits sz _ => if sz < rv.toNat ∧ cfg.warnings then 1 else 0
              | _ => 0
            let value := if isShl then shift_left lv rv.toNat else shift_right lv rv.toNat
            ⟨.constant value lt lb false, true, 0, w⟩
          | _ => ⟨node, false, 1, 0⟩
    | _ => ⟨node, false, 1, 0⟩

/-- `DoConstantFolding::postorder(IR::LAnd*)` (constantFolding.cpp:349-369).
Only the left operand is consulted; a true left memoizes and returns the
right operand as-is, a false left yields `BoolLiteral(false)`. -/
def postorderLAnd (el er : Expr) : HOut :=
  match getConstant el with
  | none => ⟨.land el er, false, 0, 0⟩
  | some left =>
    match left with
    | .boolLiteral b =>
      if b then ⟨er, true, 0, 0⟩
      else ⟨.boolLiteral false, true, 0, 0⟩
    | _ => ⟨.land el er, false, 1, 0⟩

/-- `DoConstantFolding::postorder(IR::LOr*)` (constantFolding.cpp:371-391),
symmetric to `postorderLAnd`. -/
def postorderLOr (el er : Expr) : HOut :=
  match getConstant el with
  | none => ⟨.lor el er, false, 0, 0⟩
  | some left =>
    match left with
    | .boolLiteral b =>
      if b then ⟨.boolLiteral true, true, 0, 0⟩
      else ⟨er, true, 0, 0⟩
    | _ => ⟨.lor el er, false, 1, 0⟩

/-- `P4CConfiguration::MaximumWidthSupported` (`ir/configuration.h`).
Modelled from the spec: the configuration header is not part of the
repository snapshot; the spec describes it only as "a single constant
`MaximumWidthSupported` (compile-time cap on slice indices)".  The claims
never depend on its numeric value; 2048 is used as the concrete cap. -/
def MaximumWidthSupported : Int := 2048

/-- The type the type map reports for a slice node
(`typeMap->getType(getOriginal(), true)`, constantFolding.cpp:439).
Modelled from the spec: the type map is an external collaborator; per the
language a slice `e[m:l]` has type `bit<m - l + 1>` (unsigned), which is
the `Bits` type the spec's worked example (section 8, scenario 5)
reports, so the source's `BUG` guard "Type of slice is not Type_Bits"
never fires in the embedding. -/
def sliceType (m l : Int) : Typ := .bits (m - l + 1).toNat false

/-- `DoConstantFolding::postorder(IR::Slice*)` (constantFolding.cpp:393-445),
acting on `.slice e0 e1 e2` = `e0[e1:e2]` with folded children.  The mask
is computed exactly as the source writes it: `mask = mask << (m - l + 1) - 1`
parses as `mask << ((m - l + 1) - 1)`, i.e. the single-bit mask
`1 << (m - l)`.  Negative indices (whose conversion to an unsigned GMP
shift count is undefined behaviour in the source) are modelled by
`Int.toNat`, i.e. as shift count 0; no claim exercises them. -/
def postorderSlice (cfg : Cfg) (e0 e1 e2 : Expr) : HOut :=
  let node := Expr.slice e0 e1 e2
  match getConstant e1, getConstant e2 with
  | some msb, some lsb =>
    if cfg.typesKnown = false then ⟨node, false, 0, 0⟩
    else
      match getConstant e0 with
      | none => ⟨node, false, 0, 0⟩
      | some base0 =>
        match msb with
        | .constant m _ _ _ =>
          match lsb with
          | .constant l _ _ _ =>
            match base0 with
            | .constant v _ vb _ =>
              if m < l then ⟨node, false, 1, 0⟩
              else if m > MaximumWidthSupported ∨ l > MaximumWidthSupported then
                ⟨node, false, 1, 0⟩
              else
                let value := v >>> l.toNat
                let mask := shift_left 1 (m - l).toNat
                ⟨.constant (Int.land value mask) (sliceType m l) vb true, true, 0, 0⟩
            | _ => ⟨node, false, 1, 0⟩
          | _ => ⟨node, false, 1, 0⟩
        | _ => ⟨node, false, 1, 0⟩
  | _, _ => ⟨node, false, 1, 0⟩

/-- `DoConstantFolding::postorder(IR::Concat*)` (constantFolding.cpp:490-524).
Both operands must be constants of equal `Bits` types; the result has the
combined width, the common signedness, and value
`shift_left(left, wLeft) + right` (line 520: an addition, not a bitwise
or), with `wasCast` left false (four-argument constructor, line 521). -/
def postorderConcat (el er : Expr) : HOut :=
  let node := Expr.concat el er
  match getConstant el, getConstant er with
  | some eleft, some eright =>
    match eleft with
    | .constant lv lt lb _ =>
      match eright with
      | .constant rv rt _ _ =>
        match lt, rt with
        | .bits ls lsg, .bits rs rsg =>
          if ls = rs ∧ lsg = rsg then
            ⟨.constant (shift_left lv ls + rv) (.bits (ls + rs) lsg) lb false,
              true, 0, 0⟩
          else ⟨node, false, 1, 0⟩
        | _, _ => ⟨node, false, 1, 0⟩
      | _ => ⟨node, false, 1, 0⟩
    | _ => ⟨node, false, 1, 0⟩
  | _, _ => ⟨node, false, 0, 0⟩

/-- `DoConstantFolding::postorder(IR::Cast*)` (constantFolding.cpp:591-627).
With types known the target type comes from
`typeMap->getType(getOriginal(), true)`, which for a cast node is the
cast's destination type, i.e. the same `typ` the node carries, so both
modes use `typ`.  Casting a constant to a `Bits` type re-stamps it via
`DoConstantFolding::cast` (four-argument constructor: `wasCast = false`);
a boolean becomes 0/1 in base 10; any other constant operand trips
`BUG_CHECK(expr->is<IR::BoolLiteral>(), ...)`, which aborts.  A
struct-like target clones the constant operand (the external type-map
updates are not represented). -/
def postorderCast (typ : Typ) (e : Expr) : Except String HOut :=
  let node := Expr.cast typ e
  match getConstant e with
  | none => .ok ⟨node, false, 0, 0⟩
  | some expr =>
    match typ with
    | .bits _ _ =>
      match expr with
      | .constant v _ b _ => .ok ⟨.constant v typ b false, true, 0, 0⟩
      | .boolLiteral bv => .ok ⟨.constant (if bv then 1 else 0) typ 10 false, true, 0, 0⟩
      | _ => .error "BUG_CHECK failed: expected a boolean literal"
    | .structLike => .ok ⟨expr, true, 0, 0⟩
    | _ => .ok ⟨node, false, 0, 0⟩

mutual

/-- `DoConstantFolding::setContains` (constantFolding.cpp:629-703):
whether a `select` keyset contains the (already folded) selector value.
Returns the `Result` together with the number of `::error` diagnostics
emitted.  `Except.error` models an abort: a failed `BUG_CHECK`, or — in
the boolean branch — the null-pointer dereference of `key` inside
`BUG_CHECK(key->is<IR::BoolLiteral>(), ...)` after `getConstant` failed
(lines 652-655 report the error and then dereference the null result). -/
def setContains (keySet sel : Expr) : Except String (Result × Nat) :=
  match keySet with
  | .defaultExpression => .ok (.Yes, 0)
  | _ =>
    match sel with
    | .listExpression comps =>
      match keySet with
      | .listExpression kcomps =>
        if kcomps.length = comps.length then setContainsPairs kcomps comps
        else .error "BUG_CHECK failed: size mismatch"
      | _ =>
        match comps with
        | [c] => setContains keySet c
        | _ => .error "BUG_CHECK failed: mismatch in list size"
    | .boolLiteral sv =>
      match getConstant keySet with
      | none => .error "null dereference: getConstant failed on the keyset"
      | some key =>
        match key with
        | .boolLiteral kv => .ok (if sv = kv then .Yes else .No, 0)
        | _ => .error "BUG_CHECK failed: expected a boolean"
    | .constant sv _ _ _ =>
      match keySet with
      | .constant kv _ _ _ => .ok (if kv = sv then .Yes else .No, 0)
      | .range lo hi =>
        match getConstant lo with
        | none => .ok (.DontKnow, 1)
        | some left =>
          match getConstant hi with
          | none => .ok (.DontKnow, 1)
          | some right =>
            match left, right with
            | .constant lv _ _ _, .constant rv _ _ _ =>
              .ok (if lv ≤ sv ∧ rv ≥ sv then .Yes else .No, 0)
            | _, _ => .error "null dereference: range bound is not a Constant"
      | .mask ml mr =>
        match getConstant ml with
        | none => .ok (.DontKnow, 1)
        | some left =>
          match getConstant mr with
          | none => .ok (.DontKnow, 1)
          | some right =>
            match left, right with
            | .constant lv _ _ _, .constant rv _ _ _ =>
              .ok (if Int.land lv rv = Int.land rv sv then .Yes else .No, 0)
            | _, _ => .error "null dereference: mask bound is not a Constant"
      | _ => .ok (.DontKnow, 1)
    | _ => .error "BUG_CHECK failed: expected a constant"

/-- The element-wise loop of `setContains` on two lists of equal length
(constantFolding.cpp:639-644): the first `No` or `DontKnow` is returned,
otherwise `Yes`. -/
def setContainsPairs : List Expr → List Expr → Except String (Result × Nat)
  | k :: ks, c :: cs =>
    (match setContains k c with
    | .error m => .error m
    | .ok (r, n) =>
      match r with
      | .Yes =>
        match setContainsPairs ks cs with
        | .error m => .error m
        | .ok (r2, n2) => .ok (r2, n + n2)
      | _ => .ok (r, n))
  | _, _ => .ok (.Yes, 0)

end

/-- The case walk of `DoConstantFolding::postorder(IR::SelectExpression*)`
(constantFolding.cpp:719-744), with `sel` the folded selector constant.
Arguments: remaining cases, `someUnknown`, `finished`.  Returns the cases
kept (`cases` vector), the `changes` flag contribution, the direct result
(`some state` when a `Yes` was reached with no earlier `DontKnow`), and
diagnostics. -/
def selectLoop (cfg : Cfg) (sel : Expr) :
    List (Expr × Expr) → Bool → Bool →
    Except String (List (Expr × Expr) × Bool × Option Expr × St)
  | [], _, _ => .ok ([], false, none, St.empty)
  | c :: cs, su, fin =>
    if fin then
      -- unreachable case: warn (if enabled) and skip
      match selectLoop cfg sel cs su fin with
      | .error m => .error m
      | .ok (rest, ch, res, d) =>
        .ok (rest, ch, res, St.app ⟨[], 0, if cfg.warnings then 1 else 0⟩ d)
    else
      match setContains c.1 sel with
      | .error m => .error m
      | .ok (r, n) =>
        match r with
        | .No =>
          match selectLoop cfg sel cs su false with
          | .error m => .error m
          | .ok (rest, _, res, d) => .ok (rest, true, res, St.app ⟨[], n, 0⟩ d)
        | .DontKnow =>
          match selectLoop cfg sel cs true false with
          | .error m => .error m
          | .ok (rest, ch, res, d) => .ok (c :: rest, ch, res, St.app ⟨[], n, 0⟩ d)
        | .Yes =>
          match selectLoop cfg sel cs su true with
          | .error m => .error m
          | .ok (rest, _, _, d) =>
            if su then
              .ok ((Expr.defaultExpression, c.2) :: rest, true, none, St.app ⟨[], n, 0⟩ d)
            else
              .ok (rest, true, some c.2, St.app ⟨[], n, 0⟩ d)

/-- `DoConstantFolding::postorder(IR::SelectExpression*)`
(constantFolding.cpp:705-754).  Folds only when types are known and the
selector is constant; otherwise the node is returned unchanged.  When the
walk recorded changes, an empty surviving case vector with no direct
result warns "no case matches"; a direct result is returned as the whole
expression, else the select is rebuilt with the surviving cases. -/
def postorderSelectExpression (cfg : Cfg) (sel : Expr) (cases : List (Expr × Expr)) :
    Except String HOut :=
  let node := Expr.selectExpression sel cases
  if cfg.typesKnown = false then .ok ⟨node, false, 0, 0⟩
  else
    match getConstant sel with
    | none => .ok ⟨node, false, 0, 0⟩
    | some selc =>
      match selectLoop cfg selc cases false false with
      | .error m => .error m
      | .ok (cases2, changes, res, d) =>
        if changes then
          let w := if cases2.isEmpty ∧ res.isNone ∧ cfg.warnings then 1 else 0
          match res with
          | some st => .ok ⟨st, false, d.errs, d.warns + w⟩
          | none => .ok ⟨.selectExpression sel cases2, false, d.errs, d.warns + w⟩
        else .ok ⟨node, false, d.errs, d.warns⟩

/-- Dispatch of the binary-operator `postorder` handlers: `IR::Equ` and
`IR::Neq` go through `compare` (constantFolding.cpp:187-193), every other
`BinOp` goes straight to `binary`. -/
def binopHandler (cfg : Cfg) (op : BinOp) (el er : Expr) : HOut :=
  if op = BinOp.equ ∨ op = BinOp.neq then compare cfg op el er else binary cfg op el er

/-- Wraps one handler outcome into the traversal result at a node:
when the handler called `setConstant(e, result)` (`memoized`), the memo
receives the node (with folded children) and, per
`DoConstantFolding::setConstant` (constantFolding.cpp:50-54), also
`getOriginal()` — the node before its children were replaced — both
mapping to the returned expression. -/
def wrap (d : St) (node orig : Expr) (h : HOut) : Expr × St :=
  (h.result,
    ⟨d.memo ++ (if h.memoized then [(node, h.result), (orig, h.result)] else []),
      d.errs + h.errs, d.warns + h.warns⟩)

mutual

/-- The externally driven post-order traversal of the pass over the
embedded expression fragment: children are folded first and the node's
`postorder` handler runs on the rebuilt node.  Leaves (`Constant`,
`BoolLiteral`, `DefaultExpression`) have no handler; the `PathExpression`
handler (constantFolding.cpp:56-69) returns its node unchanged because
the embedding covers `refMap == nullptr`; `Range` and `Mask` have no
handler of their own.  `Except.error` propagates an abort. -/
def fold (cfg : Cfg) : Expr → Except String (Expr × St)
  | .constant v t b w => .ok (.constant v t b w, St.empty)
  | .boolLiteral b => .ok (.boolLiteral b, St.empty)
  | .pathExpression n => .ok (.pathExpression n, St.empty)
  | .defaultExpression => .ok (.defaultExpression, St.empty)
  | .listExpression comps =>
    match foldList cfg comps with
    | .error m => .error m
    | .ok (cs, d) => .ok (.listExpression cs, d)
  | .range l r =>
    match fold cfg l with
    | .error m => .error m
    | .ok (l', d1) =>
      match fold cfg r with
      | .error m => .error m
      | .ok (r', d2) => .ok (.range l' r', St.app d1 d2)
  | .mask l r =>
    match fold cfg l with
    | .error m => .error m
    | .ok (l', d1) =>
      match fold cfg r with
      | .error m => .error m
      | .ok (r', d2) => .ok (.mask l' r', St.app d1 d2)
  | .neg e =>
    match fold cfg e with
    | .error m => .error m
    | .ok (e', d) => .ok (wrap d (.neg e') (.neg e) (postorderNeg cfg e'))
  | .cmpl e =>
    match fold cfg e with
    | .error m => .error m
    | .ok (e', d) => .ok (wrap d (.cmpl e') (.cmpl e) (postorderCmpl cfg e'))
  | .lnot e =>
    match fold cfg e with
    | .error m => .error m
    | .ok (e', d) => .ok (wrap d (.lnot e') (.lnot e) (postorderLNot e'))
  | .binop op l r =>
    match fold cfg l with
    | .error m => .error m
    | .ok (l', d1) =>
      match fold cfg r with
      | .error m => .error m
      | .ok (r', d2) =>
        .ok (wrap (St.app d1 d2) (.binop op l' r') (.binop op l r)
          (binopHandler cfg op l' r'))
  | .shift isShl l r =>
    match fold cfg l with
    | .error m => .error m
    | .ok (l', d1) =>
      match fold cfg r with
      | .error m => .error m
      | .ok (r', d2) =>
        .ok (wrap (St.app d1 d2) (.shift isShl l' r') (.shift isShl l r)
          (shiftHandler cfg isShl l' r'))
  | .land l r =>
    match fold cfg l with
    | .error m => .error m
    | .ok (l', d1) =>
      match fold cfg r with
      | .error m => .error m
      | .ok (r', d2) =>
        .ok (wrap (St.app d1 d2) (.land l' r') (.land l r) (postorderLAnd l' r'))
  | .lor l r =>
    match fold cfg l with
    | .error m => .error m
    | .ok (l', d1) =>
      match fold cfg r with
      | .error m => .error m
      | .ok (r', d2) =>
        .ok (wrap (St.app d1 d2) (.lor l' r') (.lor l r) (postorderLOr l' r'))
  | .slice e0 e1 e2 =>
    match fold cfg e0 with
    | .error m => .error m
    | .ok (e0', d0) =>
      match fold cfg e1 with
      | .error m => .error m
      | .ok (e1', d1) =>
        match fold cfg e2 with
        | .error m => .error m
        | .ok (e2', d2) =>
          .ok (wrap (St.app (St.app d0 d1) d2) (.slice e0' e1' e2') (.slice e0 e1 e2)
            (postorderSlice cfg e0' e1' e2'))
  | .concat l r =>
    match fold cfg l with
    | .error m => .error m
    | .ok (l', d1) =>
      match fold cfg r with
      | .error m => .error m
      | .ok (r', d2) =>
        .ok (wrap (St.app d1 d2) (.concat l' r') (.concat l r) (postorderConcat l' r'))
  | .cast t e =>
    match fold cfg e with
    | .error m => .error m
    | .ok (e', d) =>
      match postorderCast t e' with
      | .error m => .error m
      | .ok h => .ok (wrap d (.cast t e') (.cast t e) h)
  | .selectExpression s cs =>
    match fold cfg s with
    | .error m => .error m
    | .ok (s', d1) =>
      match foldCases cfg cs with
      | .error m => .error m
      | .ok (cs', d2) =>
        match postorderSelectExpression cfg s' cs' with
        | .error m => .error m
        | .ok h =>
          .ok (wrap (St.app d1 d2) (.selectExpression s' cs') (.selectExpression s cs) h)

/-- Post-order folding of the components of a `ListExpression`. -/
def foldList (cfg : Cfg) : List Expr → Except String (List Expr × St)
  | [] => .ok ([], St.empty)
  | e :: es =>
    match fold cfg e with
    | .error m => .error m
    | .ok (e', d1) =>
      match foldList cfg es with
      | .error m => .error m
      | .ok (es', d2) => .ok (e' :: es', St.app d1 d2)

/-- Post-order folding of the children of a `SelectExpression`'s cases:
each case's keyset and state are visited like any other child. -/
def foldCases (cfg : Cfg) : List (Expr × Expr) → Except String (List (Expr × Expr) × St)
  | [] => .ok ([], St.empty)
  | (k, s) :: cs =>
    match fold cfg k with
    | .error m => .error m
    | .ok (k', d1) =>
      match fold cfg s with
      | .error m => .error m
      | .ok (s', d2) =>
        match foldCases cfg cs with
        | .error m => .error m
        | .ok (cs', d3) => .ok ((k', s') :: cs', St.app (St.app d1 d2) d3)

end

/-! ### Helper lemmas -/

theorem getConstant_some {e c : Expr} (h : getConstant e = some c) :
    c = e ∧ isCst e = true := by
  unfold getConstant at h
  by_cases hc : isCst e = true
  · simp [hc] at h; exact ⟨h.symm, hc⟩
  · simp [hc] at h

theorem getConstant_of_isCst {e : Expr} (h : isCst e = true) :
    getConstant e = some e := by
  unfold getConstant; simp [h]

theorem getConstant_constant (v : Int) (t : Typ) (b : Nat) (w : Bool) :
    getConstant (.constant v t b w) = some (.constant v t b w) := rfl

theorem getConstant_bool (b : Bool) :
    getConstant (.boolLiteral b) = some (.boolLiteral b) := rfl

/-- Classification of `postorderNeg` outcomes: either the node is
returned unchanged and unmemoized, or the result is fully constant. -/
theorem postorderNeg_spec (cfg : Cfg) (e : Expr) :
    ((postorderNeg cfg e).result = .neg e ∧ (postorderNeg cfg e).memoized = false)
    ∨ isCst (postorderNeg cfg e).result = true := by
  unfold postorderNeg
  cases h : getConstant e with
  | none => simp
  | some op =>
    obtain ⟨rfl, hc⟩ := getConstant_some h
    cases op <;> simp_all [isCst]
    case constant v t b w =>
      cases t <;> simp [isCst]
      case structLike => split <;> simp

/-- Classification of `postorderCmpl` outcomes. -/
theorem postorderCmpl_spec (cfg : Cfg) (e : Expr) :
    ((postorderCmpl cfg e).result = .cmpl e ∧ (postorderCmpl cfg e).memoized = false)
    ∨ isCst (postorderCmpl cfg e).result = true := by
  unfold postorderCmpl
  cases h : getConstant e with
  | none => simp
  | some op =>
    obtain ⟨rfl, hc⟩ := getConstant_some h
    cases op <;> simp_all [isCst]
    case constant v t b w =>
      cases t <;> simp [isCst]
      case structLike => split <;> simp

/-- Classification of `postorderLNot` outcomes. -/
theorem postorderLNot_spec (e : Expr) :
    ((postorderLNot e).result = .lnot e ∧ (postorderLNot e).memoized = false)
    ∨ isCst (postorderLNot e).result = true := by
  unfold postorderLNot
  cases h : getConstant e with
  | none => simp
  | some op =>
    obtain ⟨rfl, hc⟩ := getConstant_some h
    cases op <;> simp_all [isCst]

/-- Classification of `binary` outcomes. -/
theorem binary_spec (cfg : Cfg) (op : BinOp) (el er : Expr) :
    ((binary cfg op el er).result = .binop op el er ∧ (binary cfg op el er).memoized = false)
    ∨ isCst (binary cfg op el er).result = true := by
  unfold binary
  cases h1 : getConstant el with
  | none => simp
  | some eleft =>
    cases h2 : getConstant er with
    | none => simp
    | some eright =>
      obtain ⟨rfl, hc1⟩ := getConstant_some h1
      obtain ⟨rfl, hc2⟩ := getConstant_some h2
      cases eleft <;> simp_all [isCst]
      case constant lv lt lb lw =>
        cases eright <;> simp_all [isCst]
        case constant rv rt rb rw =>
          cases lt <;> cases rt <;> simp [isCst] <;> split <;> simp [isCst] <;>
            split <;> simp [isCst]

/-- Classification of `compare` outcomes. -/
theorem compare_spec (cfg : Cfg) (op : BinOp) (el er : Expr) :
    ((compare cfg op el er).result = .binop op el er ∧ (compare cfg op el er).memoized = false)
    ∨ isCst (compare cfg op el er).result = true := by
  unfold compare
  cases h1 : getConstant el with
  | none => simp
  | some eleft =>
    cases h2 : getConstant er with
    | none => simp
    | some eright =>
      obtain ⟨rfl, hc1⟩ := getConstant_some h1
      obtain ⟨rfl, hc2⟩ := getConstant_some h2
      cases eleft <;> simp_all [isCst] <;> try exact binary_spec cfg op _ _
      case boolLiteral lb =>
        cases eright <;> simp_all [isCst]

/-- Classification of `shiftHandler` outcomes: unchanged, constant, or the
left operand passed through (zero shift amount). -/
theorem shiftHandler_spec (cfg : Cfg) (isShl : Bool) (el er : Expr) :
    ((shiftHandler cfg isShl el er).result = .shift isShl el er
        ∧ (shiftHandler cfg isShl el er).memoized = false)
    ∨ isCst (shiftHandler cfg isShl el er).result = true
    ∨ (shiftHandler cfg isShl el er).result = el := by
  unfold shiftHandler
  cases h1 : getConstant er with
  | none => simp
  | some right =>
    obtain ⟨rfl, hc1⟩ := getConstant_some h1
    cases right <;> simp_all [isCst]
    case constant rv rt rb rw =>
      split
      · simp
      · split
        · simp
        · cases h2 : getConstant el with
          | none => simp
          | some left =>
            obtain ⟨rfl, hc2⟩ := getConstant_some h2
            cases left <;> simp_all [isCst]

/-- Classification of `postorderLAnd` outcomes: unchanged, constant, or
the right operand passed through. -/
theorem postorderLAnd_spec (el er : Expr) :
    ((postorderLAnd el er).result = .land el er ∧ (postorderLAnd el er).memoized = false)
    ∨ isCst (postorderLAnd el er).result = true
    ∨ (postorderLAnd el er).result = er := by
  unfold postorderLAnd
  cases h : getConstant el with
  | none => simp
  | some left =>
    obtain ⟨rfl, hc⟩ := getConstant_some h
    cases left <;> simp_all [isCst]
    case boolLiteral b => cases b <;> simp [isCst]

/-- Classification of `postorderLOr` outcomes. -/
theorem postorderLOr_spec (el er : Expr) :
    ((postorderLOr el er).result = .lor el er ∧ (postorderLOr el er).memoized = false)
    ∨ isCst (postorderLOr el er).result = true
    ∨ (postorderLOr el er).result = er := by
  unfold postorderLOr
  cases h : getConstant el with
  | none => simp
  | some left =>
    obtain ⟨rfl, hc⟩ := getConstant_some h
    cases left <;> simp_all [isCst]
    case boolLiteral b => cases b <;> simp [isCst]

/-- Classification of `postorderSlice` outcomes. -/
theorem postorderSlice_spec (cfg : Cfg) (e0 e1 e2 : Expr) :
    ((postorderSlice cfg e0 e1 e2).result = .slice e0 e1 e2
        ∧ (postorderSlice cfg e0 e1 e2).memoized = false)
    ∨ isCst (postorderSlice cfg e0 e1 e2).result = true := by
  unfold postorderSlice
  cases h1 : getConstant e1 with
  | none => simp
  | some msb =>
    cases h2 : getConstant e2 with
    | none => simp
    | some lsb =>
      obtain ⟨rfl, hc1⟩ := getConstant_some h1
      obtain ⟨rfl, hc2⟩ := getConstant_some h2
      dsimp only
      split
      · simp
      · cases h0 : getConstant e0 with
        | none => simp
        | some base0 =>
          obtain ⟨rfl, hc0⟩ := getConstant_some h0
          cases msb <;> simp_all [isCst]
          case constant mv mt mb mw =>
            cases lsb <;> simp_all [isCst]
            case constant lv lt lb lw =>
              cases base0 <;> simp_all [isCst]
              case constant vv vt vb vw =>
                split
                · simp
                · split <;> simp [isCst]

/-- Classification of `postorderConcat` outcomes. -/
theorem postorderConcat_spec (el er : Expr) :
    ((postorderConcat el er).result = .concat el er
        ∧ (postorderConcat el er).memoized = false)
    ∨ isCst (postorderConcat el er).result = true := by
  unfold postorderConcat
  cases h1 : getConstant el with
  | none => simp
  | some eleft =>
    cases h2 : getConstant er with
    | none => simp
    | some eright =>
      obtain ⟨rfl, hc1⟩ := getConstant_some h1
      obtain ⟨rfl, hc2⟩ := getConstant_some h2
      cases eleft <;> simp_all [isCst]
      case constant lv lt lb lw =>
        cases eright <;> simp_all [isCst]
        case constant rv rt rb rw =>
          cases lt <;> cases rt <;> simp [isCst] <;> split <;> simp [isCst]

/-- Classification of `postorderCast` outcomes on the non-aborting path. -/
theorem postorderCast_spec (t : Typ) (e : Expr) (h : HOut)
    (hok : postorderCast t e = .ok h) :
    ((h.result = .cast t e ∧ h.memoized = false) ∨ isCst h.result = true) := by
  unfold postorderCast at hok
  cases hc : getConstant e with
  | none =>
    rw [hc] at hok
    simp at hok
    simp [← hok]
  | some expr =>
    obtain ⟨rfl, hcst⟩ := getConstant_some hc
    rw [hc] at hok
    cases t with
    | bits w s =>
      simp at hok
      cases expr <;> simp at hok <;> simp [← hok, isCst]
    | infInt =>
      simp at hok
      simp [← hok]
    | structLike =>
      simp at hok
      simp [← hok, hcst]

/-- The `SelectExpression` handler never calls `setConstant`. -/
theorem postorderSelectExpression_memo (cfg : Cfg) (s : Expr)
    (cs : List (Expr × Expr)) (h : HOut)
    (hok : postorderSelectExpression cfg s cs = .ok h) : h.memoized = false := by
  unfold postorderSelectExpression at hok
  dsimp only at hok
  split at hok
  · simp at hok
    simp [← hok]
  · cases hc : getConstant s with
    | none =>
      rw [hc] at hok
      simp at hok
      simp [← hok]
    | some selc =>
      rw [hc] at hok
      dsimp only at hok
      cases hl : selectLoop cfg selc cs false false with
      | error m => rw [hl] at hok; simp at hok
      | ok out =>
        obtain ⟨cases2, changes, res, d⟩ := out
        rw [hl] at hok
        simp only at hok
        split at hok
        · cases res with
          | none => simp at hok; simp [← hok]
          | some st => simp at hok; simp [← hok]
        · simp at hok; simp [← hok]

/-- Whether a keyset answers `DontKnow` for the selector `sel`. -/
def isDK (sel k : Expr) : Bool :=
  match setContains k sel with
  | .ok (.DontKnow, _) => true
  | _ => false

/-- Unfolding of one `selectLoop` step when a match already finished. -/
theorem selectLoop_step_fin (cfg : Cfg) (sel : Expr) (c : Expr × Expr)
    (cs : List (Expr × Expr)) (su : Bool) :
    selectLoop cfg sel (c :: cs) su true
      = match selectLoop cfg sel cs su true with
        | .error m => .error m
        | .ok (rest, ch, res, d) =>
          .ok (rest, ch, res, St.app ⟨[], 0, if cfg.warnings then 1 else 0⟩ d) := by
  simp [selectLoop]

/-- Unfolding of one `selectLoop` step on a non-matching case. -/
theorem selectLoop_step_no (cfg : Cfg) (sel : Expr) (c : Expr × Expr)
    (cs : List (Expr × Expr)) (su : Bool) (n : Nat)
    (h : setContains c.1 sel = .ok (.No, n)) :
    selectLoop cfg sel (c :: cs) su false
      = match selectLoop cfg sel cs su false with
        | .error m => .error m
        | .ok (rest, _, res, d) => .ok (rest, true, res, St.app ⟨[], n, 0⟩ d) := by
  simp [selectLoop, h]

/-- Unfolding of one `selectLoop` step on an undecidable case. -/
theorem selectLoop_step_dk (cfg : Cfg) (sel : Expr) (c : Expr × Expr)
    (cs : List (Expr × Expr)) (su : Bool) (n : Nat)
    (h : setContains c.1 sel = .ok (.DontKnow, n)) :
    selectLoop cfg sel (c :: cs) su false
      = match selectLoop cfg sel cs true false with
        | .error m => .error m
        | .ok (rest, ch, res, d) => .ok (c :: rest, ch, res, St.app ⟨[], n, 0⟩ d) := by
  simp [selectLoop, h]

/-- Unfolding of one `selectLoop` step on a matching case. -/
theorem selectLoop_step_yes (cfg : Cfg) (sel : Expr) (c : Expr × Expr)
    (cs : List (Expr × Expr)) (su : Bool) (n : Nat)
    (h : setContains c.1 sel = .ok (.Yes, n)) :
    selectLoop cfg sel (c :: cs) su false
      = match selectLoop cfg sel cs su true with
        | .error m => .error m
        | .ok (rest, _, _, d) =>
          if su then .ok ((Expr.defaultExpression, c.2) :: rest, true, none, St.app ⟨[], n, 0⟩ d)
          else .ok (rest, true, some c.2, St.app ⟨[], n, 0⟩ d) := by
  simp [selectLoop, h]

/-- After a definite match (`finished = true`) the case walk only skips
and warns: no case survives, no change is recorded, no result is set. -/
theorem selectLoop_finished (cfg : Cfg) (sel : Expr) :
    ∀ cs su, ∃ d, selectLoop cfg sel cs su true = .ok ([], false, none, d) := by
  intro cs
  induction cs with
  | nil => exact fun su => ⟨St.empty, rfl⟩
  | cons c cs ih =>
    intro su
    obtain ⟨d, hd⟩ := ih su
    exact ⟨_, by rw [selectLoop_step_fin, hd]⟩

/-- Walking `pre ++ (k, st) :: post` where every case of `pre` answers
`No` or `DontKnow` and `k` answers `Yes`: if no `DontKnow` was seen (and
none carried in via `someUnknown`), the walk reports the direct result
`st`; otherwise it keeps exactly the `DontKnow` cases of `pre` followed
by the synthetic `(DefaultExpression, st)` case. -/
theorem selectLoop_first_yes (cfg : Cfg) (sel k st : Expr)
    (post : List (Expr × Expr)) (n : Nat)
    (hk : setContains k sel = .ok (.Yes, n)) :
    ∀ (pre : List (Expr × Expr)) (su : Bool),
    (∀ p ∈ pre, ∃ m, setContains p.1 sel = .ok (.No, m)
        ∨ setContains p.1 sel = .ok (.DontKnow, m)) →
    ∃ d, selectLoop cfg sel (pre ++ (k, st) :: post) su false
      = .ok (if su || !(pre.filter (fun p => isDK sel p.1)).isEmpty
             then ((pre.filter (fun p => isDK sel p.1)) ++ [(.defaultExpression, st)],
                   true, none, d)
             else ([], true, some st, d)) := by
  intro pre
  induction pre with
  | nil =>
    intro su _
    obtain ⟨d0, hd0⟩ := selectLoop_finished cfg sel post su
    refine ⟨St.app ⟨[], n, 0⟩ d0, ?_⟩
    rw [List.nil_append, selectLoop_step_yes cfg sel (k, st) post su n hk, hd0]
    cases su with
    | false => simp
    | true => simp
  | cons p pre ih =>
    intro su hpre
    obtain ⟨m, hm⟩ := hpre p (by simp)
    have hpre2 : ∀ q ∈ pre, ∃ m, setContains q.1 sel = .ok (.No, m)
        ∨ setContains q.1 sel = .ok (.DontKnow, m) := by
      intro q hq; exact hpre q (by simp [hq])
    rcases hm with hno | hdk
    · have hf : isDK sel p.1 = false := by unfold isDK; rw [hno]
      have hfil : (p :: pre).filter (fun q => isDK sel q.1)
          = pre.filter (fun q => isDK sel q.1) := by
        simp [List.filter, hf]
      obtain ⟨d, hd⟩ := ih su hpre2
      cases hcond : (su || !(pre.filter (fun q => isDK sel q.1)).isEmpty) with
      | false =>
        rw [hcond, if_neg (by simp)] at hd
        refine ⟨St.app ⟨[], m, 0⟩ d, ?_⟩
        rw [List.cons_append, selectLoop_step_no cfg sel p _ su m hno, hd,
          hfil, hcond, if_neg (by simp)]
      | true =>
        rw [hcond, if_pos rfl] at hd
        refine ⟨St.app ⟨[], m, 0⟩ d, ?_⟩
        rw [List.cons_append, selectLoop_step_no cfg sel p _ su m hno, hd,
          hfil, hcond, if_pos rfl]
    · have hf : isDK sel p.1 = true := by unfold isDK; rw [hdk]
      have hfil : (p :: pre).filter (fun q => isDK sel q.1)
          = p :: pre.filter (fun q => isDK sel q.1) := by
        simp [List.filter, hf]
      obtain ⟨d, hd⟩ := ih true hpre2
      rw [Bool.true_or, if_pos rfl] at hd
      refine ⟨St.app ⟨[], m, 0⟩ d, ?_⟩
      rw [List.cons_append, selectLoop_step_dk cfg sel p _ su m hdk, hd, hfil]
      have hcond : (su || !((p :: pre.filter (fun q => isDK sel q.1)).isEmpty)) = true := by
        simp
      rw [hcond, if_pos rfl, List.cons_append]

/-- Classification of the combined binary-operator dispatch. -/
theorem binopHandler_spec (cfg : Cfg) (op : BinOp) (el er : Expr) :
    ((binopHandler cfg op el er).result = .binop op el er
        ∧ (binopHandler cfg op el er).memoized = false)
    ∨ isCst (binopHandler cfg op el er).result = true := by
  unfold binopHandler
  split
  · exact compare_spec cfg op el er
  · exact binary_spec cfg op el er

/-- A memoizing handler outcome classified by a `_spec` lemma has a
fully-constant result. -/
theorem spec_memo {node : Expr} {h : HOut}
    (hs : (h.result = node ∧ h.memoized = false) ∨ isCst h.result = true)
    (hm : h.memoized = true) : isCst h.result = true := by
  rcases hs with ⟨-, hf⟩ | hc
  · rw [hm] at hf; cases hf
  · exact hc

/-- The nodes whose handlers may memoize a raw, possibly non-constant
operand: `LAnd`/`LOr` (short circuit) and `Shl`/`Shr` (zero shift). -/
def isShortCircuitNode : Expr → Bool
  | .land _ _ => true
  | .lor _ _ => true
  | .shift _ _ _ => true
  | _ => false

/-- Every memo entry of a side-effect record is a fully-constant value or
keyed by a short-circuiting node. -/
def MemoOK (d : St) : Prop :=
  ∀ kv ∈ d.memo, isCst kv.2 = true ∨ isShortCircuitNode kv.1 = true

theorem pair_eq_snd {α β : Type} {p : α × β} {a : α} {b : β} (h : p = (a, b)) :
    p.2 = b := by rw [h]

theorem memoOK_empty : MemoOK St.empty := by
  intro kv hkv; cases hkv

theorem memoOK_app {d1 d2 : St} (h1 : MemoOK d1) (h2 : MemoOK d2) :
    MemoOK (St.app d1 d2) := by
  intro kv hkv
  rcases List.mem_append.1 hkv with h | h
  · exact h1 kv h
  · exact h2 kv h

theorem memoOK_wrap {d : St} {node orig : Expr} {h : HOut} (hd : MemoOK d)
    (hh : h.memoized = true → isCst h.result = true) :
    MemoOK (wrap d node orig h).2 := by
  intro kv hkv
  unfold wrap at hkv
  simp only at hkv
  rcases List.mem_append.1 hkv with hm | hm
  · exact hd kv hm
  · cases hmem : h.memoized with
    | false => rw [hmem] at hm; cases hm
    | true =>
      rw [hmem] at hm
      simp at hm
      rcases hm with rfl | rfl
      · exact Or.inl (hh hmem)
      · exact Or.inl (hh hmem)

theorem memoOK_wrap_sc {d : St} {node orig : Expr} {h : HOut} (hd : MemoOK d)
    (hn : isShortCircuitNode node = true) (ho : isShortCircuitNode orig = true) :
    MemoOK (wrap d node orig h).2 := by
  intro kv hkv
  unfold wrap at hkv
  simp only at hkv
  rcases List.mem_append.1 hkv with hm | hm
  · exact hd kv hm
  · cases hmem : h.memoized with
    | false => rw [hmem] at hm; cases hm
    | true =>
      rw [hmem] at hm
      simp at hm
      rcases hm with rfl | rfl
      · exact Or.inr hn
      · exact Or.inr ho

theorem Expr.one_le_sizeOf (e : Expr) : 1 ≤ sizeOf e := by
  cases e <;> simp_arith

theorem listExpr_one_le_sizeOf (l : List Expr) : 1 ≤ sizeOf l := by
  cases l <;> simp_arith

theorem listCase_one_le_sizeOf (cs : List (Expr × Expr)) : 1 ≤ sizeOf cs := by
  cases cs <;> simp_arith

/-- Main induction for the memo invariant, by strong induction on node
size over the three mutually recursive traversal functions. -/
theorem fold_memoOK_aux (cfg : Cfg) : ∀ n : Nat,
    (∀ e : Expr, sizeOf e ≤ n → ∀ e' d, fold cfg e = .ok (e', d) → MemoOK d)
    ∧ (∀ l : List Expr, sizeOf l ≤ n → ∀ l' d, foldList cfg l = .ok (l', d) → MemoOK d)
    ∧ (∀ cs : List (Expr × Expr), sizeOf cs ≤ n →
        ∀ cs' d, foldCases cfg cs = .ok (cs', d) → MemoOK d) := by
  intro n
  induction n with
  | zero =>
    refine ⟨fun e hsz => ?_, fun l hsz => ?_, fun cs hsz => ?_⟩
    · exact absurd hsz (by have := Expr.one_le_sizeOf e; omega)
    · exact absurd hsz (by have := listExpr_one_le_sizeOf l; omega)
    · exact absurd hsz (by have := listCase_one_le_sizeOf cs; omega)
  | succ n ih =>
    obtain ⟨ih1, ih2, ih3⟩ := ih
    refine ⟨fun e hsz e' d hfold => ?_, fun l hsz l' d hfold => ?_,
      fun cs hsz cs' d hfold => ?_⟩
    · cases e with
      | constant v t b w =>
        injection hfold with hfold
        rw [← pair_eq_snd hfold]
        exact memoOK_empty
      | boolLiteral b =>
        injection hfold with hfold
        rw [← pair_eq_snd hfold]
        exact memoOK_empty
      | pathExpression nm =>
        injection hfold with hfold
        rw [← pair_eq_snd hfold]
        exact memoOK_empty
      | defaultExpression =>
        injection hfold with hfold
        rw [← pair_eq_snd hfold]
        exact memoOK_empty
      | listExpression comps =>
        simp only [fold] at hfold
        cases hf : foldList cfg comps with
        | error m => rw [hf] at hfold; cases hfold
        | ok p =>
          obtain ⟨cs2, d2⟩ := p
          rw [hf] at hfold
          injection hfold with hfold
          rw [← pair_eq_snd hfold]
          exact ih2 comps (by simp at hsz; omega) cs2 d2 hf
      | range l r =>
        simp only [fold] at hfold
        cases hf1 : fold cfg l with
        | error m => rw [hf1] at hfold; cases hfold
        | ok p1 =>
          obtain ⟨l2, d1⟩ := p1
          rw [hf1] at hfold
          cases hf2 : fold cfg r with
          | error m => rw [hf2] at hfold; cases hfold
          | ok p2 =>
            obtain ⟨r2, d2⟩ := p2
            rw [hf2] at hfold
            injection hfold with hfold
            rw [← pair_eq_snd hfold]
            exact memoOK_app (ih1 l (by simp at hsz; omega) _ _ hf1)
              (ih1 r (by simp at hsz; omega) _ _ hf2)
      | mask l r =>
        simp only [fold] at hfold
        cases hf1 : fold cfg l with
        | error m => rw [hf1] at hfold; cases hfold
        | ok p1 =>
          obtain ⟨l2, d1⟩ := p1
          rw [hf1] at hfold
          cases hf2 : fold cfg r with
          | error m => rw [hf2] at hfold; cases hfold
          | ok p2 =>
            obtain ⟨r2, d2⟩ := p2
            rw [hf2] at hfold
            injection hfold with hfold
            rw [← pair_eq_snd hfold]
            exact memoOK_app (ih1 l (by simp at hsz; omega) _ _ hf1)
              (ih1 r (by simp at hsz; omega) _ _ hf2)
      | neg e1 =>
        simp only [fold] at hfold
        cases hf : fold cfg e1 with
        | error m => rw [hf] at hfold; cases hfold
        | ok p =>
          obtain ⟨e2, d1⟩ := p
          rw [hf] at hfold
          injection hfold with hfold
          rw [← pair_eq_snd hfold]
          exact memoOK_wrap (ih1 e1 (by simp at hsz; omega) _ _ hf)
            (spec_memo (postorderNeg_spec cfg e2))
      | cmpl e1 =>
        simp only [fold] at hfold
        cases hf : fold cfg e1 with
        | error m => rw [hf] at hfold; cases hfold
        | ok p =>
          obtain ⟨e2, d1⟩ := p
          rw [hf] at hfold
          injection hfold with hfold
          rw [← pair_eq_snd hfold]
          exact memoOK_wrap (ih1 e1 (by simp at hsz; omega) _ _ hf)
            (spec_memo (postorderCmpl_spec cfg e2))
      | lnot e1 =>
        simp only [fold] at hfold
        cases hf : fold cfg e1 with
        | error m => rw [hf] at hfold; cases hfold
        | ok p =>
          obtain ⟨e2, d1⟩ := p
          rw [hf] at hfold
          injection hfold with hfold
          rw [← pair_eq_snd hfold]
          exact memoOK_wrap (ih1 e1 (by simp at hsz; omega) _ _ hf)
            (spec_memo (postorderLNot_spec e2))
      | binop op l r =>
        simp only [fold] at hfold
        cases hf1 : fold cfg l with
        | error m => rw [hf1] at hfold; cases hfold
        | ok p1 =>
          obtain ⟨l2, d1⟩ := p1
          rw [hf1] at hfold
          cases hf2 : fold cfg r with
          | error m => rw [hf2] at hfold; cases hfold
          | ok p2 =>
            obtain ⟨r2, d2⟩ := p2
            rw [hf2] at hfold
            injection hfold with hfold
            rw [← pair_eq_snd hfold]
            exact memoOK_wrap
              (memoOK_app (ih1 l (by simp at hsz; omega) _ _ hf1)
                (ih1 r (by simp at hsz; omega) _ _ hf2))
              (spec_memo (binopHandler_spec cfg op l2 r2))
      | shift isShl l r =>
        simp only [fold] at hfold
        cases hf1 : fold cfg l with
        | error m => rw [hf1] at hfold; cases hfold
        | ok p1 =>
          obtain ⟨l2, d1⟩ := p1
          rw [hf1] at hfold
          cases hf2 : fold cfg r with
          | error m => rw [hf2] at hfold; cases hfold
          | ok p2 =>
            obtain ⟨r2, d2⟩ := p2
            rw [hf2] at hfold
            injection hfold with hfold
            rw [← pair_eq_snd hfold]
            exact memoOK_wrap_sc
              (memoOK_app (ih1 l (by simp at hsz; omega) _ _ hf1)
                (ih1 r (by simp at hsz; omega) _ _ hf2)) rfl rfl
      | land l r =>
        simp only [fold] at hfold
        cases hf1 : fold cfg l with
        | error m => rw [hf1] at hfold; cases hfold
        | ok p1 =>
          obtain ⟨l2, d1⟩ := p1
          rw [hf1] at hfold
          cases hf2 : fold cfg r with
          | error m => rw [hf2] at hfold; cases hfold
          | ok p2 =>
            obtain ⟨r2, d2⟩ := p2
            rw [hf2] at hfold
            injection hfold with hfold
            rw [← pair_eq_snd hfold]
            exact memoOK_wrap_sc
              (memoOK_app (ih1 l (by simp at hsz; omega) _ _ hf1)
                (ih1 r (by simp at hsz; omega) _ _ hf2)) rfl rfl
      | lor l r =>
        simp only [fold] at hfold
        cases hf1 : fold cfg l with
        | error m => rw [hf1] at hfold; cases hfold
        | ok p1 =>
          obtain ⟨l2, d1⟩ := p1
          rw [hf1] at hfold
          cases hf2 : fold cfg r with
          | error m => rw [hf2] at hfold; cases hfold
          | ok p2 =>
            obtain ⟨r2, d2⟩ := p2
            rw [hf2] at hfold
            injection hfold with hfold
            rw [← pair_eq_snd hfold]
            exact memoOK_wrap_sc
              (memoOK_app (ih1 l (by simp at hsz; omega) _ _ hf1)
                (ih1 r (by simp at hsz; omega) _ _ hf2)) rfl rfl
      | slice e0 e1 e2 =>
        simp only [fold] at hfold
        cases hf0 : fold cfg e0 with
        | error m => rw [hf0] at hfold; cases hfold
        | ok p0 =>
          obtain ⟨a0, d0⟩ := p0
          rw [hf0] at hfold
          cases hf1 : fold cfg e1 with
          | error m => rw [hf1] at hfold; cases hfold
          | ok p1 =>
            obtain ⟨a1, d1⟩ := p1
            rw [hf1] at hfold
            cases hf2 : fold cfg e2 with
            | error m => rw [hf2] at hfold; cases hfold
            | ok p2 =>
              obtain ⟨a2, d2⟩ := p2
              rw [hf2] at hfold
              injection hfold with hfold
              rw [← pair_eq_snd hfold]
              exact memoOK_wrap
                (memoOK_app
                  (memoOK_app (ih1 e0 (by simp at hsz; omega) _ _ hf0)
                    (ih1 e1 (by simp at hsz; omega) _ _ hf1))
                  (ih1 e2 (by simp at hsz; omega) _ _ hf2))
                (spec_memo (postorderSlice_spec cfg a0 a1 a2))
      | concat l r =>
        simp only [fold] at hfold
        cases hf1 : fold cfg l with
        | error m => rw [hf1] at hfold; cases hfold
        | ok p1 =>
          obtain ⟨l2, d1⟩ := p1
          rw [hf1] at hfold
          cases hf2 : fold cfg r with
          | error m => rw [hf2] at hfold; cases hfold
          | ok p2 =>
            obtain ⟨r2, d2⟩ := p2
            rw [hf2] at hfold
            injection hfold with hfold
            rw [← pair_eq_snd hfold]
            exact memoOK_wrap
              (memoOK_app (ih1 l (by simp at hsz; omega) _ _ hf1)
                (ih1 r (by simp at hsz; omega) _ _ hf2))
              (spec_memo (postorderConcat_spec l2 r2))
      | cast t e1 =>
        simp only [fold] at hfold
        cases hf : fold cfg e1 with
        | error m => rw [hf] at hfold; cases hfold
        | ok p =>
          obtain ⟨e2, d1⟩ := p
          rw [hf] at hfold
          dsimp only at hfold
          cases hc : postorderCast t e2 with
          | error m => rw [hc] at hfold; cases hfold
          | ok h =>
            rw [hc] at hfold
            injection hfold with hfold
            rw [← pair_eq_snd hfold]
            exact memoOK_wrap (ih1 e1 (by simp at hsz; omega) _ _ hf)
              (spec_memo (postorderCast_spec t e2 h hc))
      | selectExpression s cs0 =>
        simp only [fold] at hfold
        cases hf1 : fold cfg s with
        | error m => rw [hf1] at hfold; cases hfold
        | ok p1 =>
          obtain ⟨s2, d1⟩ := p1
          rw [hf1] at hfold
          cases hf2 : foldCases cfg cs0 with
          | error m => rw [hf2] at hfold; cases hfold
          | ok p2 =>
            obtain ⟨cs2, d2⟩ := p2
            rw [hf2] at hfold
            dsimp only at hfold
            cases hc : postorderSelectExpression cfg s2 cs2 with
            | error m => rw [hc] at hfold; cases hfold
            | ok h =>
              rw [hc] at hfold
              injection hfold with hfold
              rw [← pair_eq_snd hfold]
              exact memoOK_wrap
                (memoOK_app (ih1 s (by simp at hsz; omega) _ _ hf1)
                  (ih3 cs0 (by simp at hsz; omega) _ _ hf2))
                (fun hm => absurd hm (by
                  rw [postorderSelectExpression_memo cfg s2 cs2 h hc]
                  simp))
    · cases l with
      | nil =>
        injection hfold with hfold
        rw [← pair_eq_snd hfold]
        exact memoOK_empty
      | cons e es =>
        simp only [foldList] at hfold
        cases hf1 : fold cfg e with
        | error m => rw [hf1] at hfold; cases hfold
        | ok p1 =>
          obtain ⟨e2, d1⟩ := p1
          rw [hf1] at hfold
          cases hf2 : foldList cfg es with
          | error m => rw [hf2] at hfold; cases hfold
          | ok p2 =>
            obtain ⟨es2, d2⟩ := p2
            rw [hf2] at hfold
            injection hfold with hfold
            rw [← pair_eq_snd hfold]
            exact memoOK_app (ih1 e (by simp at hsz; omega) _ _ hf1)
              (ih2 es (by simp at hsz; omega) _ _ hf2)
    · cases cs with
      | nil =>
        injection hfold with hfold
        rw [← pair_eq_snd hfold]
        exact memoOK_empty
      | cons c cs1 =>
        obtain ⟨k, s⟩ := c
        simp only [foldCases] at hfold
        cases hf1 : fold cfg k with
        | error m => rw [hf1] at hfold; cases hfold
        | ok p1 =>
          obtain ⟨k2, d1⟩ := p1
          rw [hf1] at hfold
          cases hf2 : fold cfg s with
          | error m => rw [hf2] at hfold; cases hfold
          | ok p2 =>
            obtain ⟨s2, d2⟩ := p2
            rw [hf2] at hfold
            cases hf3 : foldCases cfg cs1 with
            | error m => rw [hf3] at hfold; cases hfold
            | ok p3 =>
              obtain ⟨cs3, d3⟩ := p3
              rw [hf3] at hfold
              injection hfold with hfold
              rw [← pair_eq_snd hfold]
              exact memoOK_app
                (memoOK_app (ih1 k (by simp at hsz; omega) _ _ hf1)
                  (ih1 s (by simp at hsz; omega) _ _ hf2))
                (ih3 cs1 (by simp at hsz; omega) _ _ hf3)

/-- Folding a fully-constant expression (in particular every `Constant`
or `BoolLiteral`, and every constant list) leaves it unchanged with no
side effects, by strong induction on size. -/
theorem fold_isCst_aux (cfg : Cfg) : ∀ n : Nat,
    (∀ e : Expr, sizeOf e ≤ n → isCst e = true → fold cfg e = .ok (e, St.empty))
    ∧ (∀ l : List Expr, sizeOf l ≤ n → isCst.goList l = true →
        foldList cfg l = .ok (l, St.empty)) := by
  intro n
  induction n with
  | zero =>
    refine ⟨fun e hsz => ?_, fun l hsz => ?_⟩
    · exact absurd hsz (by have := Expr.one_le_sizeOf e; omega)
    · exact absurd hsz (by have := listExpr_one_le_sizeOf l; omega)
  | succ n ih =>
    obtain ⟨ih1, ih2⟩ := ih
    refine ⟨fun e hsz hc => ?_, fun l hsz hc => ?_⟩
    · cases e <;> simp [isCst] at hc
      · rfl
      · rfl
      · rename_i comps
        have := ih2 comps (by simp at hsz; omega) hc
        simp only [fold, this]
    · cases l with
      | nil => rfl
      | cons x xs =>
        simp only [isCst.goList, Bool.and_eq_true] at hc
        have h1 := ih1 x (by simp at hsz; omega) hc.1
        have h2 := ih2 xs (by simp at hsz; omega) hc.2
        simp only [foldList, h1, h2]
        rfl

/-- Folding a fully-constant expression is the identity. -/
theorem fold_isCst (cfg : Cfg) {e : Expr} (h : isCst e = true) :
    fold cfg e = .ok (e, St.empty) :=
  (fold_isCst_aux cfg (sizeOf e)).1 e (le_refl _) h

/-- A list of individually stable expressions folds to itself. -/
theorem foldList_of_fix (cfg : Cfg) :
    ∀ l : List Expr, (∀ x ∈ l, ∃ d, fold cfg x = .ok (x, d)) →
    ∃ d, foldList cfg l = .ok (l, d) := by
  intro l
  induction l with
  | nil => exact fun _ => ⟨St.empty, rfl⟩
  | cons x xs ih =>
    intro hfix
    obtain ⟨d1, h1⟩ := hfix x (by simp)
    obtain ⟨d2, h2⟩ := ih (fun y hy => hfix y (by simp [hy]))
    exact ⟨St.app d1 d2, by simp only [foldList, h1, h2]⟩

/-- A case list whose keysets and states are all stable folds to itself. -/
theorem foldCases_of_fix (cfg : Cfg) :
    ∀ cs : List (Expr × Expr),
    (∀ p ∈ cs, (∃ d, fold cfg p.1 = .ok (p.1, d)) ∧ ∃ d, fold cfg p.2 = .ok (p.2, d)) →
    ∃ d, foldCases cfg cs = .ok (cs, d) := by
  intro cs
  induction cs with
  | nil => exact fun _ => ⟨St.empty, rfl⟩
  | cons c cs ih =>
    intro hfix
    obtain ⟨k, s⟩ := c
    obtain ⟨⟨d1, h1⟩, d2, h2⟩ := hfix (k, s) (by simp)
    obtain ⟨d3, h3⟩ := ih (fun p hp => hfix p (by simp [hp]))
    exact ⟨St.app (St.app d1 d2) d3, by simp only [foldCases, h1, h2, h3]⟩

/-- Every keyset of the list answers `DontKnow` for the selector. -/
def allDK (sel : Expr) (cs : List (Expr × Expr)) : Prop :=
  ∀ p ∈ cs, ∃ m, setContains p.1 sel = .ok (.DontKnow, m)

/-- A case walk over keysets that all answer `DontKnow` keeps everything,
records no change and sets no result. -/
theorem selectLoop_allDK (cfg : Cfg) (sel : Expr) :
    ∀ cs, allDK sel cs → ∀ su,
    ∃ d, selectLoop cfg sel cs su false = .ok (cs, false, none, d) := by
  intro cs
  induction cs with
  | nil => exact fun _ su => ⟨St.empty, rfl⟩
  | cons c cs ih =>
    intro hdk su
    obtain ⟨m, hm⟩ := hdk c (by simp)
    obtain ⟨d, hd⟩ := ih (fun p hp => hdk p (by simp [hp])) true
    exact ⟨_, by rw [selectLoop_step_dk cfg sel c cs su m hm, hd]⟩

/-- The `DefaultExpression` keyset contains every selector value
(constantFolding.cpp:631-632). -/
theorem setContains_default (sel : Expr) :
    setContains .defaultExpression sel = .ok (.Yes, 0) := by
  cases sel <;> rfl

/-- Re-walking a case vector of the shape the reduction produces — a
non-empty `DontKnow` prefix followed by the synthetic default case —
reproduces it verbatim, with `changes` set and no direct result. -/
theorem selectLoop_refold_default (cfg : Cfg) (sel st : Expr)
    (K : List (Expr × Expr)) (hK : allDK sel K) (hne : K ≠ []) :
    ∃ d, selectLoop cfg sel (K ++ [(.defaultExpression, st)]) false false
      = .ok (K ++ [(.defaultExpression, st)], true, none, d) := by
  have hpre : ∀ p ∈ K, ∃ m, setContains p.1 sel = .ok (.No, m)
      ∨ setContains p.1 sel = .ok (.DontKnow, m) := by
    intro p hp
    obtain ⟨m, hm⟩ := hK p hp
    exact ⟨m, Or.inr hm⟩
  obtain ⟨d, hd⟩ := selectLoop_first_yes cfg sel (.defaultExpression) st [] 0
    (setContains_default sel) K false hpre
  have hfil : K.filter (fun p => isDK sel p.1) = K := by
    rw [List.filter_eq_self]
    intro p hp
    obtain ⟨m, hm⟩ := hK p hp
    unfold isDK
    rw [hm]
  rw [hfil] at hd
  have hcond : (false || !K.isEmpty) = true := by
    cases K with
    | nil => exact absurd rfl hne
    | cons a as => rfl
  rw [hcond, if_pos rfl] at hd
  exact ⟨d, hd⟩

/-- Unfolding of one `selectLoop` step when `setContains` aborts. -/
theorem selectLoop_step_err (cfg : Cfg) (sel : Expr) (c : Expr × Expr)
    (cs : List (Expr × Expr)) (su : Bool) (m : String)
    (h : setContains c.1 sel = .error m) :
    selectLoop cfg sel (c :: cs) su false = .error m := by
  simp [selectLoop, h]

/-- Shape of every successful case walk started unfinished: either a
direct result (some later state, with nothing kept and no prior
unknown), or a kept `DontKnow` prefix closed by a synthetic default
case, or only kept `DontKnow` cases (the whole input when no change was
recorded). -/
theorem selectLoop_shape (cfg : Cfg) (sel : Expr) :
    ∀ (cs : List (Expr × Expr)) (su : Bool) cs2 ch res d,
    selectLoop cfg sel cs su false = .ok (cs2, ch, res, d) →
    (∃ st, res = some st ∧ ch = true ∧ cs2 = [] ∧ su = false ∧ st ∈ cs.map Prod.snd)
    ∨ (res = none ∧ ch = true
        ∧ ∃ K stp, cs2 = K ++ [(.defaultExpression, stp)] ∧ allDK sel K
          ∧ (∀ p ∈ K, p ∈ cs) ∧ stp ∈ cs.map Prod.snd ∧ (su = false → K ≠ []))
    ∨ (res = none ∧ allDK sel cs2 ∧ (∀ p ∈ cs2, p ∈ cs) ∧ (ch = false → cs2 = cs)) := by
  intro cs
  induction cs with
  | nil =>
    intro su cs2 ch res d h
    have h0 : selectLoop cfg sel [] su false = .ok ([], false, none, St.empty) := rfl
    rw [h0] at h
    simp only [Except.ok.injEq, Prod.mk.injEq] at h
    obtain ⟨rfl, rfl, rfl, rfl⟩ := h
    refine Or.inr (Or.inr ⟨rfl, ?_, ?_, fun _ => rfl⟩)
    · intro p hp; cases hp
    · intro p hp; cases hp
  | cons c cs ih =>
    intro su cs2 ch res d h
    cases hsc : setContains c.1 sel with
    | error m => rw [selectLoop_step_err cfg sel c cs su m hsc] at h; cases h
    | ok p =>
      obtain ⟨r, n⟩ := p
      cases r with
      | No =>
        rw [selectLoop_step_no cfg sel c cs su n hsc] at h
        cases hrec : selectLoop cfg sel cs su false with
        | error m => rw [hrec] at h; cases h
        | ok q =>
          obtain ⟨rest, ch0, res0, d0⟩ := q
          rw [hrec] at h
          simp only [Except.ok.injEq, Prod.mk.injEq] at h
          obtain ⟨rfl, rfl, rfl, rfl⟩ := h
          rcases ih su rest ch0 res0 d0 hrec with
            ⟨st, hr, -, hrest, hsu, hmem⟩ | ⟨hr, -, K, stp, hrest, hdkK, hsub, hmem, hne⟩
            | ⟨hr, hdk0, hsub, -⟩
          · exact Or.inl ⟨st, hr, rfl, hrest, hsu, List.mem_cons_of_mem _ hmem⟩
          · exact Or.inr (Or.inl ⟨hr, rfl, K, stp, hrest, hdkK,
              fun p hp => List.mem_cons_of_mem _ (hsub p hp),
              List.mem_cons_of_mem _ hmem, hne⟩)
          · exact Or.inr (Or.inr ⟨hr, hdk0,
              fun p hp => List.mem_cons_of_mem _ (hsub p hp),
              fun hf => absurd hf (by simp)⟩)
      | DontKnow =>
        rw [selectLoop_step_dk cfg sel c cs su n hsc] at h
        cases hrec : selectLoop cfg sel cs true false with
        | error m => rw [hrec] at h; cases h
        | ok q =>
          obtain ⟨rest, ch0, res0, d0⟩ := q
          rw [hrec] at h
          simp only [Except.ok.injEq, Prod.mk.injEq] at h
          obtain ⟨rfl, rfl, rfl, rfl⟩ := h
          rcases ih true rest ch0 res0 d0 hrec with
            ⟨st, -, -, -, hsu, -⟩ | ⟨hr, hch, K, stp, hrest, hdkK, hsub, hmem, -⟩
            | ⟨hr, hdk0, hsub, hch⟩
          · cases hsu
          · refine Or.inr (Or.inl ⟨hr, hch, c :: K, stp, ?_, ?_, ?_,
              List.mem_cons_of_mem _ hmem, fun _ => by simp⟩)
            · rw [hrest, List.cons_append]
            · intro p hp
              rcases List.mem_cons.1 hp with rfl | hp2
              · exact ⟨n, hsc⟩
              · exact hdkK p hp2
            · intro p hp
              rcases List.mem_cons.1 hp with rfl | hp2
              · exact List.mem_cons_self _ _
              · exact List.mem_cons_of_mem _ (hsub p hp2)
          · refine Or.inr (Or.inr ⟨hr, ?_, ?_, ?_⟩)
            · intro p hp
              rcases List.mem_cons.1 hp with rfl | hp2
              · exact ⟨n, hsc⟩
              · exact hdk0 p hp2
            · intro p hp
              rcases List.mem_cons.1 hp with rfl | hp2
              · exact List.mem_cons_self _ _
              · exact List.mem_cons_of_mem _ (hsub p hp2)
            · intro hf
              rw [hch hf]
      | Yes =>
        rw [selectLoop_step_yes cfg sel c cs su n hsc] at h
        obtain ⟨d0, hfin⟩ := selectLoop_finished cfg sel cs su
        rw [hfin] at h
        cases su with
        | true =>
          simp only [Except.ok.injEq, Prod.mk.injEq, if_true] at h
          obtain ⟨rfl, rfl, rfl, rfl⟩ := h
          refine Or.inr (Or.inl ⟨rfl, rfl, [], c.2, rfl, ?_, ?_,
            List.mem_cons_self _ _, fun hf => by cases hf⟩)
          · intro p hp; cases hp
          · intro p hp; cases hp
        | false =>
          simp only [Except.ok.injEq, Prod.mk.injEq, Bool.false_eq_true,
            if_false] at h
          obtain ⟨rfl, rfl, rfl, rfl⟩ := h
          exact Or.inl ⟨c.2, rfl, rfl, rfl, rfl, List.mem_cons_self _ _⟩

/-- A node whose handler returns it unchanged is a fixed point of the
traversal. -/
theorem fix_of_refold (cfg : Cfg) (node : Expr) (d : St) (h : HOut)
    (hrefold : fold cfg node = .ok (wrap d node node h))
    (hres : h.result = node) : ∃ d2, fold cfg node = .ok (node, d2) := by
  rw [hrefold]
  unfold wrap
  rw [hres]
  exact ⟨_, rfl⟩

/-- Main induction for idempotence: the output of a successful fold is a
fixed point of the traversal, by strong induction on node size over the
three mutually recursive traversal functions. -/
theorem fold_fix_aux (cfg : Cfg) : ∀ n : Nat,
    (∀ e : Expr, sizeOf e ≤ n → ∀ e' d, fold cfg e = .ok (e', d) →
      ∃ d2, fold cfg e' = .ok (e', d2))
    ∧ (∀ l : List Expr, sizeOf l ≤ n → ∀ l' d, foldList cfg l = .ok (l', d) →
      ∀ x ∈ l', ∃ d2, fold cfg x = .ok (x, d2))
    ∧ (∀ cs : List (Expr × Expr), sizeOf cs ≤ n →
      ∀ cs' d, foldCases cfg cs = .ok (cs', d) →
      ∀ p ∈ cs', (∃ d2, fold cfg p.1 = .ok (p.1, d2)) ∧ ∃ d2, fold cfg p.2 = .ok (p.2, d2)) := by
  intro n
  induction n with
  | zero =>
    refine ⟨fun e hsz => ?_, fun l hsz => ?_, fun cs hsz => ?_⟩
    · exact absurd hsz (by have := Expr.one_le_sizeOf e; omega)
    · exact absurd hsz (by have := listExpr_one_le_sizeOf l; omega)
    · exact absurd hsz (by have := listCase_one_le_sizeOf cs; omega)
  | succ n ih =>
    obtain ⟨ih1, ih2, ih3⟩ := ih
    refine ⟨fun e hsz e' d hfold => ?_, fun l hsz l' d hfold => ?_,
      fun cs hsz cs' d hfold => ?_⟩
    · cases e with
      | constant v t b w =>
        injection hfold with hfold
        have he : e' = .constant v t b w := (congrArg Prod.fst hfold).symm
        rw [he]; exact ⟨St.empty, rfl⟩
      | boolLiteral b =>
        injection hfold with hfold
        have he : e' = .boolLiteral b := (congrArg Prod.fst hfold).symm
        rw [he]; exact ⟨St.empty, rfl⟩
      | pathExpression nm =>
        injection hfold with hfold
        have he : e' = .pathExpression nm := (congrArg Prod.fst hfold).symm
        rw [he]; exact ⟨St.empty, rfl⟩
      | defaultExpression =>
        injection hfold with hfold
        have he : e' = .defaultExpression := (congrArg Prod.fst hfold).symm
        rw [he]; exact ⟨St.empty, rfl⟩
      | listExpression comps =>
        simp only [fold] at hfold
        cases hf : foldList cfg comps with
        | error m => rw [hf] at hfold; cases hfold
        | ok p =>
          obtain ⟨cs2, d2⟩ := p
          rw [hf] at hfold
          injection hfold with hfold
          have he : e' = .listExpression cs2 := (congrArg Prod.fst hfold).symm
          obtain ⟨dd, hl⟩ := foldList_of_fix cfg cs2
            (ih2 comps (by simp at hsz; omega) cs2 d2 hf)
          rw [he]
          exact ⟨dd, by simp only [fold, hl]⟩
      | range l r =>
        simp only [fold] at hfold
        cases hf1 : fold cfg l with
        | error m => rw [hf1] at hfold; cases hfold
        | ok p1 =>
          obtain ⟨l2, d1⟩ := p1
          rw [hf1] at hfold
          cases hf2 : fold cfg r with
          | error m => rw [hf2] at hfold; cases hfold
          | ok p2 =>
            obtain ⟨r2, dd2⟩ := p2
            rw [hf2] at hfold
            injection hfold with hfold
            have he : e' = .range l2 r2 := (congrArg Prod.fst hfold).symm
            obtain ⟨dl, hfixl⟩ := ih1 l (by simp at hsz; omega) l2 d1 hf1
            obtain ⟨dr, hfixr⟩ := ih1 r (by simp at hsz; omega) r2 dd2 hf2
            rw [he]
            exact ⟨St.app dl dr, by simp only [fold, hfixl, hfixr]⟩
      | mask l r =>
        simp only [fold] at hfold
        cases hf1 : fold cfg l with
        | error m => rw [hf1] at hfold; cases hfold
        | ok p1 =>
          obtain ⟨l2, d1⟩ := p1
          rw [hf1] at hfold
          cases hf2 : fold cfg r with
          | error m => rw [hf2] at hfold; cases hfold
          | ok p2 =>
            obtain ⟨r2, dd2⟩ := p2
            rw [hf2] at hfold
            injection hfold with hfold
            have he : e' = .mask l2 r2 := (congrArg Prod.fst hfold).symm
            obtain ⟨dl, hfixl⟩ := ih1 l (by simp at hsz; omega) l2 d1 hf1
            obtain ⟨dr, hfixr⟩ := ih1 r (by simp at hsz; omega) r2 dd2 hf2
            rw [he]
            exact ⟨St.app dl dr, by simp only [fold, hfixl, hfixr]⟩
      | neg e1 =>
        simp only [fold] at hfold
        cases hf : fold cfg e1 with
        | error m => rw [hf] at hfold; cases hfold
        | ok p =>
          obtain ⟨e2, d1⟩ := p
          rw [hf] at hfold
          injection hfold with hfold
          have he : e' = (postorderNeg cfg e2).result := (congrArg Prod.fst hfold).symm
          obtain ⟨d2, hfix⟩ := ih1 e1 (by simp at hsz; omega) e2 d1 hf
          rw [he]
          rcases postorderNeg_spec cfg e2 with ⟨hres, -⟩ | hcst
          · rw [hres]
            exact fix_of_refold cfg (.neg e2) d2 (postorderNeg cfg e2)
              (by simp only [fold, hfix]) hres
          · exact ⟨_, fold_isCst cfg hcst⟩
      | cmpl e1 =>
        simp only [fold] at hfold
        cases hf : fold cfg e1 with
        | error m => rw [hf] at hfold; cases hfold
        | ok p =>
          obtain ⟨e2, d1⟩ := p
          rw [hf] at hfold
          injection hfold with hfold
          have he : e' = (postorderCmpl cfg e2).result := (congrArg Prod.fst hfold).symm
          obtain ⟨d2, hfix⟩ := ih1 e1 (by simp at hsz; omega) e2 d1 hf
          rw [he]
          rcases postorderCmpl_spec cfg e2 with ⟨hres, -⟩ | hcst
          · rw [hres]
            exact fix_of_refold cfg (.cmpl e2) d2 (postorderCmpl cfg e2)
              (by simp only [fold, hfix]) hres
          · exact ⟨_, fold_isCst cfg hcst⟩
      | lnot e1 =>
        simp only [fold] at hfold
        cases hf : fold cfg e1 with
        | error m => rw [hf] at hfold; cases hfold
        | ok p =>
          obtain ⟨e2, d1⟩ := p
          rw [hf] at hfold
          injection hfold with hfold
          have he : e' = (postorderLNot e2).result := (congrArg Prod.fst hfold).symm
          obtain ⟨d2, hfix⟩ := ih1 e1 (by simp at hsz; omega) e2 d1 hf
          rw [he]
          rcases postorderLNot_spec e2 with ⟨hres, -⟩ | hcst
          · rw [hres]
            exact fix_of_refold cfg (.lnot e2) d2 (postorderLNot e2)
              (by simp only [fold, hfix]) hres
          · exact ⟨_, fold_isCst cfg hcst⟩
      | binop op l r =>
        simp only [fold] at hfold
        cases hf1 : fold cfg l with
        | error m => rw [hf1] at hfold; cases hfold
        | ok p1 =>
          obtain ⟨l2, d1⟩ := p1
          rw [hf1] at hfold
          cases hf2 : fold cfg r with
          | error m => rw [hf2] at hfold; cases hfold
          | ok p2 =>
            obtain ⟨r2, dd2⟩ := p2
            rw [hf2] at hfold
            injection hfold with hfold
            have he : e' = (binopHandler cfg op l2 r2).result :=
              (congrArg Prod.fst hfold).symm
            obtain ⟨dl, hfixl⟩ := ih1 l (by simp at hsz; omega) l2 d1 hf1
            obtain ⟨dr, hfixr⟩ := ih1 r (by simp at hsz; omega) r2 dd2 hf2
            rw [he]
            rcases binopHandler_spec cfg op l2 r2 with ⟨hres, -⟩ | hcst
            · rw [hres]
              exact fix_of_refold cfg (.binop op l2 r2) (St.app dl dr)
                (binopHandler cfg op l2 r2) (by simp only [fold, hfixl, hfixr]) hres
            · exact ⟨_, fold_isCst cfg hcst⟩
      | shift isShl l r =>
        simp only [fold] at hfold
        cases hf1 : fold cfg l with
        | error m => rw [hf1] at hfold; cases hfold
        | ok p1 =>
          obtain ⟨l2, d1⟩ := p1
          rw [hf1] at hfold
          cases hf2 : fold cfg r with
          | error m => rw [hf2] at hfold; cases hfold
          | ok p2 =>
            obtain ⟨r2, dd2⟩ := p2
            rw [hf2] at hfold
            injection hfold with hfold
            have he : e' = (shiftHandler cfg isShl l2 r2).result :=
              (congrArg Prod.fst hfold).symm
            obtain ⟨dl, hfixl⟩ := ih1 l (by simp at hsz; omega) l2 d1 hf1
            obtain ⟨dr, hfixr⟩ := ih1 r (by simp at hsz; omega) r2 dd2 hf2
            rw [he]
            rcases shiftHandler_spec cfg isShl l2 r2 with ⟨hres, -⟩ | hcst | hres
            · rw [hres]
              exact fix_of_refold cfg (.shift isShl l2 r2) (St.app dl dr)
                (shiftHandler cfg isShl l2 r2) (by simp only [fold, hfixl, hfixr]) hres
            · exact ⟨_, fold_isCst cfg hcst⟩
            · rw [hres]
              exact ⟨dl, hfixl⟩
      | land l r =>
        simp only [fold] at hfold
        cases hf1 : fold cfg l with
        | error m => rw [hf1] at hfold; cases hfold
        | ok p1 =>
          obtain ⟨l2, d1⟩ := p1
          rw [hf1] at hfold
          cases hf2 : fold cfg r with
          | error m => rw [hf2] at hfold; cases hfold
          | ok p2 =>
            obtain ⟨r2, dd2⟩ := p2
            rw [hf2] at hfold
            injection hfold with hfold
            have he : e' = (postorderLAnd l2 r2).result := (congrArg Prod.fst hfold).symm
            obtain ⟨dl, hfixl⟩ := ih1 l (by simp at hsz; omega) l2 d1 hf1
            obtain ⟨dr, hfixr⟩ := ih1 r (by simp at hsz; omega) r2 dd2 hf2
            rw [he]
            rcases postorderLAnd_spec l2 r2 with ⟨hres, -⟩ | hcst | hres
            · rw [hres]
              exact fix_of_refold cfg (.land l2 r2) (St.app dl dr)
                (postorderLAnd l2 r2) (by simp only [fold, hfixl, hfixr]) hres
            · exact ⟨_, fold_isCst cfg hcst⟩
            · rw [hres]
              exact ⟨dr, hfixr⟩
      | lor l r =>
        simp only [fold] at hfold
        cases hf1 : fold cfg l with
        | error m => rw [hf1] at hfold; cases hfold
        | ok p1 =>
          obtain ⟨l2, d1⟩ := p1
          rw [hf1] at hfold
          cases hf2 : fold cfg r with
          | error m => rw [hf2] at hfold; cases hfold
          | ok p2 =>
            obtain ⟨r2, dd2⟩ := p2
            rw [hf2] at hfold
            injection hfold with hfold
            have he : e' = (postorderLOr l2 r2).result := (congrArg Prod.fst hfold).symm
            obtain ⟨dl, hfixl⟩ := ih1 l (by simp at hsz; omega) l2 d1 hf1
            obtain ⟨dr, hfixr⟩ := ih1 r (by simp at hsz; omega) r2 dd2 hf2
            rw [he]
            rcases postorderLOr_spec l2 r2 with ⟨hres, -⟩ | hcst | hres
            · rw [hres]
              exact fix_of_refold cfg (.lor l2 r2) (St.app dl dr)
                (postorderLOr l2 r2) (by simp only [fold, hfixl, hfixr]) hres
            · exact ⟨_, fold_isCst cfg hcst⟩
            · rw [hres]
              exact ⟨dr, hfixr⟩
      | slice e0 e1 e2 =>
        simp only [fold] at hfold
        cases hf0 : fold cfg e0 with
        | error m => rw [hf0] at hfold; cases hfold
        | ok p0 =>
          obtain ⟨a0, d0⟩ := p0
          rw [hf0] at hfold
          cases hf1 : fold cfg e1 with
          | error m => rw [hf1] at hfold; cases hfold
          | ok p1 =>
            obtain ⟨a1, d1⟩ := p1
            rw [hf1] at hfold
            cases hf2 : fold cfg e2 with
            | error m => rw [hf2] at hfold; cases hfold
            | ok p2 =>
              obtain ⟨a2, d2⟩ := p2
              rw [hf2] at hfold
              injection hfold with hfold
              have he : e' = (postorderSlice cfg a0 a1 a2).result :=
                (congrArg Prod.fst hfold).symm
              obtain ⟨db0, hfix0⟩ := ih1 e0 (by simp at hsz; omega) a0 d0 hf0
              obtain ⟨db1, hfix1⟩ := ih1 e1 (by simp at hsz; omega) a1 d1 hf1
              obtain ⟨db2, hfix2⟩ := ih1 e2 (by simp at hsz; omega) a2 d2 hf2
              rw [he]
              rcases postorderSlice_spec cfg a0 a1 a2 with ⟨hres, -⟩ | hcst
              · rw [hres]
                exact fix_of_refold cfg (.slice a0 a1 a2) (St.app (St.app db0 db1) db2)
                  (postorderSlice cfg a0 a1 a2)
                  (by simp only [fold, hfix0, hfix1, hfix2]) hres
              · exact ⟨_, fold_isCst cfg hcst⟩
      | concat l r =>
        simp only [fold] at hfold
        cases hf1 : fold cfg l with
        | error m => rw [hf1] at hfold; cases hfold
        | ok p1 =>
          obtain ⟨l2, d1⟩ := p1
          rw [hf1] at hfold
          cases hf2 : fold cfg r with
          | error m => rw [hf2] at hfold; cases hfold
          | ok p2 =>
            obtain ⟨r2, dd2⟩ := p2
            rw [hf2] at hfold
            injection hfold with hfold
            have he : e' = (postorderConcat l2 r2).result := (congrArg Prod.fst hfold).symm
            obtain ⟨dl, hfixl⟩ := ih1 l (by simp at hsz; omega) l2 d1 hf1
            obtain ⟨dr, hfixr⟩ := ih1 r (by simp at hsz; omega) r2 dd2 hf2
            rw [he]
            rcases postorderConcat_spec l2 r2 with ⟨hres, -⟩ | hcst
            · rw [hres]
              exact fix_of_refold cfg (.concat l2 r2) (St.app dl dr)
                (postorderConcat l2 r2) (by simp only [fold, hfixl, hfixr]) hres
            · exact ⟨_, fold_isCst cfg hcst⟩
      | cast t e1 =>
        simp only [fold] at hfold
        cases hf : fold cfg e1 with
        | error m => rw [hf] at hfold; cases hfold
        | ok p =>
          obtain ⟨e2, d1⟩ := p
          rw [hf] at hfold
          dsimp only at hfold
          cases hc : postorderCast t e2 with
          | error m => rw [hc] at hfold; cases hfold
          | ok h =>
            rw [hc] at hfold
            injection hfold with hfold
            have he : e' = h.result := (congrArg Prod.fst hfold).symm
            obtain ⟨d2, hfix⟩ := ih1 e1 (by simp at hsz; omega) e2 d1 hf
            rw [he]
            rcases postorderCast_spec t e2 h hc with ⟨hres, -⟩ | hcst
            · rw [hres]
              exact fix_of_refold cfg (.cast t e2) d2 h
                (by simp only [fold, hfix, hc]) hres
            · exact ⟨_, fold_isCst cfg hcst⟩
      | selectExpression s cs0 =>
        simp only [fold] at hfold
        cases hf1 : fold cfg s with
        | error m => rw [hf1] at hfold; cases hfold
        | ok p1 =>
          obtain ⟨s2, d1⟩ := p1
          rw [hf1] at hfold
          cases hf2 : foldCases cfg cs0 with
          | error m => rw [hf2] at hfold; cases hfold
          | ok p2 =>
            obtain ⟨cs2, dd2⟩ := p2
            rw [hf2] at hfold
            dsimp only at hfold
            cases hc : postorderSelectExpression cfg s2 cs2 with
            | error m => rw [hc] at hfold; cases hfold
            | ok h =>
              rw [hc] at hfold
              injection hfold with hfold
              have he : e' = h.result := (congrArg Prod.fst hfold).symm
              obtain ⟨ds, hfixs⟩ := ih1 s (by simp at hsz; omega) s2 d1 hf1
              have hfixcs := ih3 cs0 (by simp at hsz; omega) cs2 dd2 hf2
              rw [he]
              have hgeneric : h.result = .selectExpression s2 cs2 →
                  ∃ d2, fold cfg h.result = .ok (h.result, d2) := by
                intro hres
                obtain ⟨dc, hcc⟩ := foldCases_of_fix cfg cs2 hfixcs
                rw [hres]
                exact fix_of_refold cfg (.selectExpression s2 cs2) (St.app ds dc) h
                  (by simp only [fold, hfixs, hcc, hc]) hres
              have hc0 := hc
              unfold postorderSelectExpression at hc
              cases hTK : cfg.typesKnown with
              | false =>
                rw [hTK] at hc
                simp only [if_pos rfl] at hc
                injection hc with hc
                exact hgeneric (by rw [← hc])
              | true =>
                rw [hTK] at hc
                simp only [Bool.true_eq_false, if_false] at hc
                cases hgc : getConstant s2 with
                | none =>
                  rw [hgc] at hc
                  injection hc with hc
                  exact hgeneric (by rw [← hc])
                | some selc =>
                  have heqsel : selc = s2 := (getConstant_some hgc).1
                  rw [hgc] at hc
                  dsimp only at hc
                  rw [heqsel] at hc
                  cases hloop : selectLoop cfg s2 cs2 false false with
                  | error m => rw [hloop] at hc; cases hc
                  | ok q =>
                    obtain ⟨cases2, ch, res, dl⟩ := q
                    rw [hloop] at hc
                    rcases selectLoop_shape cfg s2 cs2 false cases2 ch res dl hloop with
                      ⟨st, hres0, hch, hcs20, -, hmem⟩
                      | ⟨hres0, hch, K, stp, hcs2eq, hdkK, hsubK, hmemstp, hKne⟩
                      | ⟨hres0, hdk2, hsub2, hcheq⟩
                    · -- direct result: the state of a folded case
                      subst hres0; subst hch
                      simp only [if_pos rfl] at hc
                      injection hc with hc
                      have hr : h.result = st := by rw [← hc]
                      rw [hr]
                      obtain ⟨p, hp, hps⟩ := List.mem_map.1 hmem
                      exact hps ▸ (hfixcs p hp).2
                    · -- kept DontKnow prefix closed by the synthetic default
                      subst hres0; subst hch
                      simp only [if_pos rfl] at hc
                      injection hc with hc
                      have hr : h.result = .selectExpression s2 cases2 := by rw [← hc]
                      rw [hr]
                      have hKne2 : K ≠ [] := hKne rfl
                      have hfix2 : ∀ p ∈ cases2,
                          (∃ d2, fold cfg p.1 = .ok (p.1, d2))
                          ∧ ∃ d2, fold cfg p.2 = .ok (p.2, d2) := by
                        intro p hp
                        rw [hcs2eq] at hp
                        rcases List.mem_append.1 hp with hp1 | hp1
                        · exact hfixcs p (hsubK p hp1)
                        · rw [List.mem_singleton] at hp1
                          subst hp1
                          refine ⟨⟨St.empty, rfl⟩, ?_⟩
                          obtain ⟨q, hq, hqs⟩ := List.mem_map.1 hmemstp
                          exact hqs ▸ (hfixcs q hq).2
                      obtain ⟨dc, hcc⟩ := foldCases_of_fix cfg cases2 hfix2
                      obtain ⟨dl2, hl2⟩ := selectLoop_refold_default cfg s2 stp K hdkK hKne2
                      rw [← hcs2eq] at hl2
                      have hh2 : ∃ w, postorderSelectExpression cfg s2 cases2
                          = .ok ⟨.selectExpression s2 cases2, false, dl2.errs, w⟩ := by
                        unfold postorderSelectExpression
                        rw [hTK]
                        simp only [Bool.true_eq_false, if_false]
                        rw [hgc, heqsel]
                        dsimp only
                        rw [hl2]
                        exact ⟨_, rfl⟩
                      obtain ⟨w2, hh2⟩ := hh2
                      exact ⟨_, by
                        simp only [fold, hfixs, hcc]
                        rw [hh2]
                        unfold wrap
                        rfl⟩
                    · -- only kept DontKnow cases
                      subst hres0
                      cases hch2 : ch with
                      | false =>
                        rw [hch2] at hc
                        simp only [Bool.false_eq_true, if_false] at hc
                        injection hc with hc
                        exact hgeneric (by rw [← hc])
                      | true =>
                        rw [hch2] at hc
                        simp only [if_pos rfl] at hc
                        injection hc with hc
                        have hr : h.result = .selectExpression s2 cases2 := by rw [← hc]
                        rw [hr]
                        have hfix2 : ∀ p ∈ cases2,
                            (∃ d2, fold cfg p.1 = .ok (p.1, d2))
                            ∧ ∃ d2, fold cfg p.2 = .ok (p.2, d2) :=
                          fun p hp => hfixcs p (hsub2 p hp)
                        obtain ⟨dc, hcc⟩ := foldCases_of_fix cfg cases2 hfix2
                        obtain ⟨dl2, hl2⟩ := selectLoop_allDK cfg s2 cases2 hdk2 false
                        have hh2 : ∃ w, postorderSelectExpression cfg s2 cases2
                            = .ok ⟨.selectExpression s2 cases2, false, dl2.errs, w⟩ := by
                          unfold postorderSelectExpression
                          rw [hTK]
                          simp only [Bool.true_eq_false, if_false]
                          rw [hgc, heqsel]
                          dsimp only
                          rw [hl2]
                          exact ⟨_, rfl⟩
                        obtain ⟨w2, hh2⟩ := hh2
                        exact ⟨_, by
                          simp only [fold, hfixs, hcc]
                          rw [hh2]
                          unfold wrap
                          rfl⟩
    · cases l with
      | nil =>
        injection hfold with hfold
        have he : l' = [] := (congrArg Prod.fst hfold).symm
        rw [he]
        intro x hx; cases hx
      | cons x xs =>
        simp only [foldList] at hfold
        cases hf1 : fold cfg x with
        | error m => rw [hf1] at hfold; cases hfold
        | ok p1 =>
          obtain ⟨x2, d1⟩ := p1
          rw [hf1] at hfold
          cases hf2 : foldList cfg xs with
          | error m => rw [hf2] at hfold; cases hfold
          | ok p2 =>
            obtain ⟨xs2, d2⟩ := p2
            rw [hf2] at hfold
            injection hfold with hfold
            have he : l' = x2 :: xs2 := (congrArg Prod.fst hfold).symm
            rw [he]
            intro y hy
            rcases List.mem_cons.1 hy with rfl | hy2
            · exact ih1 x (by simp at hsz; omega) y d1 hf1
            · exact ih2 xs (by simp at hsz; omega) xs2 d2 hf2 y hy2
    · cases cs with
      | nil =>
        injection hfold with hfold
        have he : cs' = [] := (congrArg Prod.fst hfold).symm
        rw [he]
        intro p hp; cases hp
      | cons c cs1 =>
        obtain ⟨k, s⟩ := c
        simp only [foldCases] at hfold
        cases hf1 : fold cfg k with
        | error m => rw [hf1] at hfold; cases hfold
        | ok p1 =>
          obtain ⟨k2, d1⟩ := p1
          rw [hf1] at hfold
          cases hf2 : fold cfg s with
          | error m => rw [hf2] at hfold; cases hfold
          | ok p2 =>
            obtain ⟨s2, d2⟩ := p2
            rw [hf2] at hfold
            cases hf3 : foldCases cfg cs1 with
            | error m => rw [hf3] at hfold; cases hfold
            | ok p3 =>
              obtain ⟨cs3, d3⟩ := p3
              rw [hf3] at hfold
              injection hfold with hfold
              have he : cs' = (k2, s2) :: cs3 := (congrArg Prod.fst hfold).symm
              rw [he]
              intro p hp
              rcases List.mem_cons.1 hp with rfl | hp2
              · exact ⟨ih1 k (by simp at hsz; omega) k2 d1 hf1,
                  ih1 s (by simp at hsz; omega) s2 d2 hf2⟩
              · exact ih3 cs1 (by simp at hsz; omega) cs3 d3 hf3 p hp2

/-! ### Claim theorems -/

/-- C1: the claim states that a slice of a constant with constant in-range
indices `msb ≥ lsb` folds to `(target >> lsb) & ((1 << (msb - lsb + 1)) - 1)`
— an all-ones mask of the slice width — giving `0xBC` on the spec's worked
example `0xABCD[11:4]`.  The source (constantFolding.cpp:437) writes
`mask = mask << (m - l + 1) - 1`, which C++ precedence parses as
`1 << (m - l)`: a single-bit mask.  On the worked example the code
produces `0x80`, not the claimed `0xBC` (the spec's section 9 itself
flags this line as a latent bug and names the all-ones mask as the
intent). -/
theorem slice_single_bit_mask_bug :
    postorderSlice ⟨true, true⟩ (.constant 0xABCD (.bits 16 false) 16 false)
        (.constant 11 .infInt 10 false) (.constant 4 .infInt 10 false)
      = ⟨.constant 0x80 (.bits 8 false) 16 true, true, 0, 0⟩
    ∧ Int.land (Int.shiftRight 0xABCD 4) (shift_left 1 (11 - 4 + 1) - 1) = 0xBC
    ∧ (0x80 : Int) ≠ 0xBC :=
  ⟨rfl, by decide, by decide⟩

/-- C5: the claim states that whenever an operand `setContains` requires
to be constant fails to fold — including the keyset when the selector is
a `BoolLiteral` — the function emits a diagnostic and returns `DontKnow`
rather than crashing.  The `Range`/`Mask` branches do exactly that
(second and third conjuncts), but the `BoolLiteral` branch
(constantFolding.cpp:651-655) reports the error and then dereferences the
null `key` inside `BUG_CHECK(key->is<IR::BoolLiteral>(), ...)`: the
program aborts instead of returning `DontKnow` (first conjunct). -/
theorem setContains_bool_keyset_crash :
    setContains (.pathExpression "x") (.boolLiteral true)
      = .error "null dereference: getConstant failed on the keyset"
    ∧ setContains (.range (.pathExpression "a") (.constant 3 .infInt 10 false))
        (.constant 5 .infInt 10 false) = .ok (.DontKnow, 1)
    ∧ setContains (.mask (.pathExpression "a") (.constant 3 .infInt 10 false))
        (.constant 5 .infInt 10 false) = .ok (.DontKnow, 1) :=
  ⟨rfl, rfl, rfl⟩

/-- C6: for a left operand that folds to `BoolLiteral(false)`, `LAnd`
yields `BoolLiteral(false)` for every right operand (even ill-typed or
non-foldable ones), and for a true left it yields the right operand node
itself; `LOr` symmetrically.  The right operand `er` is universally
quantified and returned verbatim: the handlers never fold it. -/
theorem land_lor_short_circuit (el er : Expr) :
    (getConstant el = some (.boolLiteral false) →
      postorderLAnd el er = ⟨.boolLiteral false, true, 0, 0⟩
      ∧ postorderLOr el er = ⟨er, true, 0, 0⟩)
    ∧ (getConstant el = some (.boolLiteral true) →
      postorderLAnd el er = ⟨er, true, 0, 0⟩
      ∧ postorderLOr el er = ⟨.boolLiteral true, true, 0, 0⟩) := by
  constructor
  · intro h
    obtain ⟨heq, -⟩ := getConstant_some h
    cases heq
    exact ⟨rfl, rfl⟩
  · intro h
    obtain ⟨heq, -⟩ := getConstant_some h
    cases heq
    exact ⟨rfl, rfl⟩

/-- Witness for C6 at a concrete input whose right operand is ill-typed
and non-foldable. -/
theorem land_lor_short_circuit_witness :
    postorderLAnd (.boolLiteral false) (.binop .div (.pathExpression "x") (.boolLiteral true))
      = ⟨.boolLiteral false, true, 0, 0⟩
    ∧ postorderLAnd (.boolLiteral true) (.binop .div (.pathExpression "x") (.boolLiteral true))
      = ⟨.binop .div (.pathExpression "x") (.boolLiteral true), true, 0, 0⟩ :=
  ⟨((land_lor_short_circuit (.boolLiteral false)
      (.binop .div (.pathExpression "x") (.boolLiteral true))).1 rfl).1,
   ((land_lor_short_circuit (.boolLiteral true)
      (.binop .div (.pathExpression "x") (.boolLiteral true))).2 rfl).1⟩

/-- C7: `binary` on two `InfInt` constants produces the exact
mathematical value with no width masking: a `BoolLiteral` for relational
operators and a `Constant` of type `InfInt` (left operand's base,
`wasCast = true`) otherwise.  The remaining conjuncts identify `opValue`
with the exact mathematical operations (division and modulo are exact
whenever the lambda's negative-operand and zero-divisor guards pass). -/
theorem binary_infint_exact (cfg : Cfg) (op : BinOp) (lv rv : Int)
    (lb rb : Nat) (lw rw : Bool) :
    binary cfg op (.constant lv .infInt lb lw) (.constant rv .infInt rb rw)
      = ⟨if op.isRelation then .boolLiteral ((opValue op lv rv).1 ≠ 0)
         else .constant (opValue op lv rv).1 .infInt lb true,
         true, (opValue op lv rv).2, 0⟩
    ∧ opValue .add lv rv = (lv + rv, 0)
    ∧ opValue .sub lv rv = (lv - rv, 0)
    ∧ opValue .mul lv rv = (lv * rv, 0)
    ∧ opValue .band lv rv = (Int.land lv rv, 0)
    ∧ opValue .bor lv rv = (Int.lor lv rv, 0)
    ∧ opValue .bxor lv rv = (Int.xor lv rv, 0)
    ∧ ((opValue .lss lv rv).1 = 1 ↔ lv < rv)
    ∧ ((opValue .grt lv rv).1 = 1 ↔ lv > rv)
    ∧ ((opValue .leq lv rv).1 = 1 ↔ lv ≤ rv)
    ∧ ((opValue .geq lv rv).1 = 1 ↔ lv ≥ rv)
    ∧ ((opValue .equ lv rv).1 = 1 ↔ lv = rv)
    ∧ ((opValue .neq lv rv).1 = 1 ↔ lv ≠ rv)
    ∧ (0 ≤ lv → 0 ≤ rv → rv ≠ 0 →
        opValue .div lv rv = (lv / rv, 0) ∧ opValue .mod lv rv = (lv % rv, 0)) := by
  refine ⟨rfl, rfl, rfl, rfl, rfl, rfl, rfl, ?_, ?_, ?_, ?_, ?_, ?_, ?_⟩
  · by_cases h : lv < rv <;> simp [opValue, h]
  · by_cases h : lv > rv <;> simp [opValue, h]
  · by_cases h : lv ≤ rv <;> simp [opValue, h]
  · by_cases h : lv ≥ rv <;> simp [opValue, h]
  · by_cases h : lv = rv <;> simp [opValue, h]
  · by_cases h : lv = rv <;> simp [opValue, h]
  · intro h1 h2 h3
    have hno : ¬(lv < 0 ∨ rv < 0) := by omega
    constructor <;> simp [opValue, hno, h3]

/-- Witness for C7: division of `InfInt` constants 7 and 2 produces the
exact quotient 3 of type `InfInt`. -/
theorem binary_infint_exact_witness :
    binary ⟨true, true⟩ .div (.constant 7 .infInt 10 false) (.constant 2 .infInt 10 false)
      = ⟨.constant 3 .infInt 10 true, true, 0, 0⟩ := by
  obtain ⟨h1, -, -, -, -, -, -, -, -, -, -, -, -, hdiv⟩ :=
    binary_infint_exact ⟨true, true⟩ .div 7 2 10 10 false false
  obtain ⟨hd, -⟩ := hdiv (by decide) (by decide) (by decide)
  rw [h1, hd]
  rfl

/-- C4 counterexample: the claim states that a `Div` whose operands fold
to integer constants with zero divisor makes the pass report an error and
return the original node unchanged with nothing memoized.  On
`10w32 / 0w32` the lambda reports the error and yields the placeholder 0,
but `binary` (constantFolding.cpp:298,340-346) then builds, memoizes and
returns a replacement `Constant(0)` — which is not the original node. -/
theorem div_by_zero_replaces_counterexample :
    binary ⟨true, true⟩ .div (.constant 10 (.bits 32 false) 10 false)
        (.constant 0 (.bits 32 false) 10 false)
      = ⟨.constant 0 (.bits 32 false) 10 true, true, 1, 0⟩
    ∧ Expr.constant 0 (.bits 32 false) 10 true
        ≠ .binop .div (.constant 10 (.bits 32 false) 10 false)
            (.constant 0 (.bits 32 false) 10 false) :=
  ⟨rfl, fun h => Expr.noConfusion h⟩

/-- C4 amended: on a `Div`/`Mod` of two integer constants with a zero
divisor or a negative operand, the lambda reports its error and yields
the placeholder 0, and `binary` then continues; every `Constant` carries
a `Bits` or `InfInt` type (spec section 3, invariant 2), and whenever
the operand types unify — equal `Bits{w,s}` types, both `InfInt`, or one
`InfInt` promoted to the other side's `Bits` — the engine builds,
memoizes and returns the replacement `Constant(0)` in the unified type
(`wasCast = true`, one error in total); only when the two `Bits` types
mismatch does unification fail: the type-mismatch error is additionally
reported (two errors) and the original node is returned unmemoized. -/
theorem div_mod_by_zero_error_and_zero_result (cfg : Cfg) (op : BinOp)
    (lv rv : Int) (lb rb : Nat) (lw rw : Bool)
    (hop : op = .div ∨ op = .mod) (hbad : rv = 0 ∨ lv < 0 ∨ rv < 0) :
    (∀ (w : Nat) (s : Bool),
      binary cfg op (.constant lv (.bits w s) lb lw) (.constant rv (.bits w s) rb rw)
        = ⟨.constant 0 (.bits w s) lb true, true, 1, 0⟩)
    ∧ binary cfg op (.constant lv .infInt lb lw) (.constant rv .infInt rb rw)
        = ⟨.constant 0 .infInt lb true, true, 1, 0⟩
    ∧ (∀ (w : Nat) (s : Bool),
      binary cfg op (.constant lv .infInt lb lw) (.constant rv (.bits w s) rb rw)
        = ⟨.constant 0 (.bits w s) lb true, true, 1, 0⟩)
    ∧ (∀ (w : Nat) (s : Bool),
      binary cfg op (.constant lv (.bits w s) lb lw) (.constant rv .infInt rb rw)
        = ⟨.constant 0 (.bits w s) lb true, true, 1, 0⟩)
    ∧ (∀ (w1 : Nat) (s1 : Bool) (w2 : Nat) (s2 : Bool), ¬(w1 = w2 ∧ s1 = s2) →
      binary cfg op (.constant lv (.bits w1 s1) lb lw) (.constant rv (.bits w2 s2) rb rw)
        = ⟨.binop op (.constant lv (.bits w1 s1) lb lw) (.constant rv (.bits w2 s2) rb rw),
           false, 2, 0⟩) := by
  have hv : opValue op lv rv = (0, 1) := by
    rcases hop with rfl | rfl <;>
      · by_cases hneg : lv < 0 ∨ rv < 0
        · simp [opValue, hneg]
        · have hz : rv = 0 := by omega
          simp [opValue, hneg, hz]
  have hrel : op.isRelation = false := by
    rcases hop with rfl | rfl <;> rfl
  refine ⟨fun w s => ?_, ?_, fun w s => ?_, fun w s => ?_, fun w1 s1 w2 s2 hne => ?_⟩
  · unfold binary
    simp [getConstant, isCst, hv, hrel]
  · unfold binary
    simp [getConstant, isCst, hv, hrel]
  · unfold binary
    simp [getConstant, isCst, hv, hrel]
  · unfold binary
    simp [getConstant, isCst, hv, hrel]
  · unfold binary
    simp [getConstant, isCst, hv, hrel, hne]

/-- Witness for C4 (amended): modulo by zero on two 32-bit constants
(unified type, replacement memoized) and division by zero on constants
of mismatched widths (original node returned, two errors, unmemoized). -/
theorem div_mod_by_zero_error_and_zero_result_witness :
    binary ⟨true, true⟩ .mod (.constant 10 (.bits 32 false) 10 false)
        (.constant 0 (.bits 32 false) 10 false)
      = ⟨.constant 0 (.bits 32 false) 10 true, true, 1, 0⟩
    ∧ binary ⟨true, true⟩ .div (.constant 10 (.bits 32 false) 10 false)
        (.constant 0 (.bits 16 false) 10 false)
      = ⟨.binop .div (.constant 10 (.bits 32 false) 10 false)
          (.constant 0 (.bits 16 false) 10 false), false, 2, 0⟩ :=
  ⟨(div_mod_by_zero_error_and_zero_result ⟨true, true⟩ .mod 10 0 10 10 false false
      (Or.inr rfl) (Or.inl rfl)).1 32 false,
   (div_mod_by_zero_error_and_zero_result ⟨true, true⟩ .div 10 0 10 10 false false
      (Or.inl rfl) (Or.inl rfl)).2.2.2.2 32 false 16 false (by decide)⟩

/-- C8 counterexample: the claim states the concatenation value is
`(leftValue << wRight) | rightValue` for all constant operand values,
including negative ones.  The source (constantFolding.cpp:520) adds
instead of or-ing: on `Concat(1w8, (-1)w8)` the code produces
`(1 << 8) + (-1) = 255`, while the claimed bitwise-or form gives
`(1 << 8) | (-1) = -1`. -/
theorem concat_or_counterexample :
    postorderConcat (.constant 1 (.bits 8 false) 10 false)
        (.constant (-1) (.bits 8 false) 10 false)
      = ⟨.constant 255 (.bits 16 false) 10 false, true, 0, 0⟩
    ∧ Int.lor (shift_left 1 8) (-1) = -1
    ∧ (255 : Int) ≠ -1 := by
  refine ⟨rfl, ?_, by decide⟩
  have h1 : shift_left 1 8 = 256 := rfl
  have h2 : (-1 : Int) = Int.negSucc 0 := rfl
  rw [h1, h2]
  show Int.negSucc (Nat.ldiff 0 256) = Int.negSucc 0
  norm_num [Nat.ldiff, Nat.bitwise]

/-- C8 amended: on constants of equal `Bits{w,s}` types, `Concat` yields
a constant of width `w + w` and the common signedness whose value is
`(leftValue << w) + rightValue` (which coincides with the claimed
bitwise-or form exactly when `0 ≤ rightValue < 2^w`); the result keeps
the left base and `wasCast = false`. -/
theorem concat_value_add (lv rv : Int) (w : Nat) (s : Bool) (lb rb : Nat)
    (lw rw : Bool) :
    postorderConcat (.constant lv (.bits w s) lb lw) (.constant rv (.bits w s) rb rw)
      = ⟨.constant (shift_left lv w + rv) (.bits (w + w) s) lb false, true, 0, 0⟩
    ∧ shift_left lv w = lv * 2 ^ w := by
  constructor
  · unfold postorderConcat
    simp [getConstant, isCst]
  · rfl

/-- C10: a cast to a `Bits` type whose operand folds (per `getConstant`)
to a fully-constant expression that is neither a `Constant` nor a
`BoolLiteral` — in this fragment, a `ListExpression` all of whose
components are constant — trips
`BUG_CHECK(expr->is<IR::BoolLiteral>(), ...)` (constantFolding.cpp:610)
and aborts, rather than returning the node or reporting recoverably. -/
theorem cast_nonliteral_constant_aborts (w : Nat) (s : Bool) (comps : List Expr)
    (h : isCst (.listExpression comps) = true) :
    postorderCast (.bits w s) (.listExpression comps)
      = .error "BUG_CHECK failed: expected a boolean literal" := by
  unfold postorderCast
  rw [getConstant_of_isCst h]

/-- Witness for C10: casting a constant list to `bit<8>` aborts. -/
theorem cast_nonliteral_constant_aborts_witness :
    postorderCast (.bits 8 false) (.listExpression [.constant 1 .infInt 10 false])
      = .error "BUG_CHECK failed: expected a boolean literal" :=
  cast_nonliteral_constant_aborts 8 false [.constant 1 .infInt 10 false] rfl

/-- C2: when types are known and the selector is constant, the select
reduction picks the first case, in source order, whose keyset contains
the selector (`setContains` answers `Yes`), every earlier case answering
`No` or `DontKnow`: with no earlier `DontKnow` the whole expression
reduces directly to that case's target state; otherwise the retained
`DontKnow` cases survive and the matching case is kept with its keyset
rewritten to `DefaultExpression` after them. -/
theorem select_reduces_to_first_matching_case (cfg : Cfg) (sel k st : Expr)
    (pre post : List (Expr × Expr)) (n : Nat)
    (hT : cfg.typesKnown = true)
    (hsel : isCst sel = true)
    (hpre : ∀ p ∈ pre, ∃ m, setContains p.1 sel = .ok (.No, m)
        ∨ setContains p.1 sel = .ok (.DontKnow, m))
    (hk : setContains k sel = .ok (.Yes, n)) :
    ∃ errs warns, postorderSelectExpression cfg sel (pre ++ (k, st) :: post)
      = .ok ⟨if (pre.filter (fun p => isDK sel p.1)).isEmpty
             then st
             else .selectExpression sel
               ((pre.filter (fun p => isDK sel p.1)) ++ [(.defaultExpression, st)]),
             false, errs, warns⟩ := by
  obtain ⟨d, hd⟩ := selectLoop_first_yes cfg sel k st post n hk pre false hpre
  rw [Bool.false_or] at hd
  unfold postorderSelectExpression
  rw [hT]
  simp only [Bool.true_eq_false, if_false, getConstant_of_isCst hsel]
  cases hemp : (pre.filter (fun p => isDK sel p.1)).isEmpty with
  | true =>
    rw [hemp, Bool.not_true, if_neg (by simp)] at hd
    refine ⟨d.errs, d.warns, ?_⟩
    rw [hd]
    simp [hemp]
  | false =>
    rw [hemp, Bool.not_false, if_pos rfl] at hd
    refine ⟨d.errs, d.warns, ?_⟩
    rw [hd]
    have hne : ((pre.filter (fun p => isDK sel p.1)) ++ [(Expr.defaultExpression, st)]).isEmpty
        = false := by
      cases pre.filter (fun p => isDK sel p.1) <;> rfl
    simp [hne, hemp]

/-- Witness for C2: the spec's worked select (section 8, scenario 6):
selector `5w8` against cases `Range(0,3) → S1`, `Mask(0x04,0xFC) → S2`,
`Default → S3` reduces directly to `S2`. -/
theorem select_reduces_to_first_matching_case_witness :
    ∃ errs warns, postorderSelectExpression ⟨true, true⟩
        (.constant 5 (.bits 8 false) 10 false)
        [(.range (.constant 0 (.bits 8 false) 10 false) (.constant 3 (.bits 8 false) 10 false),
          .pathExpression "S1"),
         (.mask (.constant 4 (.bits 8 false) 10 false) (.constant 0xFC (.bits 8 false) 10 false),
          .pathExpression "S2"),
         (.defaultExpression, .pathExpression "S3")]
      = .ok ⟨.pathExpression "S2", false, errs, warns⟩ := by
  obtain ⟨errs, warns, h⟩ := select_reduces_to_first_matching_case ⟨true, true⟩
    (.constant 5 (.bits 8 false) 10 false)
    (.mask (.constant 4 (.bits 8 false) 10 false) (.constant 0xFC (.bits 8 false) 10 false))
    (.pathExpression "S2")
    [(.range (.constant 0 (.bits 8 false) 10 false) (.constant 3 (.bits 8 false) 10 false),
      .pathExpression "S1")]
    [(.defaultExpression, .pathExpression "S3")]
    0 rfl rfl
    (by
      intro p hp
      rw [List.mem_singleton] at hp
      subst hp
      exact ⟨0, Or.inl rfl⟩)
    rfl
  exact ⟨errs, warns, h⟩

/-- C3 amended: every value stored in the constant memo under a key that
is not a `LAnd`/`LOr`/shift node is a fully constant expression; the
`LAnd`/`LOr` short-circuit handlers and the shift(-by-zero) handler are
the only ones that may record a raw, possibly non-constant operand. -/
theorem memo_values_constant_except_short_circuit (cfg : Cfg) (e e' : Expr) (d : St)
    (h : fold cfg e = .ok (e', d)) :
    ∀ kv ∈ d.memo, isCst kv.2 = true ∨ isShortCircuitNode kv.1 = true :=
  (fold_memoOK_aux cfg (sizeOf e)).1 e (le_refl _) e' d h

/-- Witness for C3 (amended): the first memo entry produced by folding
`3w8 + 4w8` has a fully constant value. -/
theorem memo_values_constant_except_short_circuit_witness :
    isCst (.constant 7 (.bits 8 false) 10 true) = true
    ∨ isShortCircuitNode (.binop .add (.constant 3 (.bits 8 false) 10 false)
        (.constant 4 (.bits 8 false) 10 false)) = true :=
  memo_values_constant_except_short_circuit ⟨true, true⟩
    (.binop .add (.constant 3 (.bits 8 false) 10 false)
      (.constant 4 (.bits 8 false) 10 false))
    (.constant 7 (.bits 8 false) 10 true)
    (St.mk
      [(.binop .add (.constant 3 (.bits 8 false) 10 false)
          (.constant 4 (.bits 8 false) 10 false),
        .constant 7 (.bits 8 false) 10 true),
       (.binop .add (.constant 3 (.bits 8 false) 10 false)
          (.constant 4 (.bits 8 false) 10 false),
        .constant 7 (.bits 8 false) 10 true)] 0 0) rfl
    (.binop .add (.constant 3 (.bits 8 false) 10 false)
      (.constant 4 (.bits 8 false) 10 false),
     .constant 7 (.bits 8 false) 10 true)
    (List.mem_cons_self _ _)

/-- C9: the pass is idempotent on the embedded fragment: if folding an
expression succeeds and produces `e'`, then folding `e'` (with a fresh
memo — the side-effect record of each run starts empty) succeeds and
returns `e'` itself. -/
theorem fold_idempotent (cfg : Cfg) (e e' : Expr) (d : St)
    (h : fold cfg e = .ok (e', d)) : ∃ d2, fold cfg e' = .ok (e', d2) :=
  (fold_fix_aux cfg (sizeOf e)).1 e (le_refl _) e' d h

/-- Witness for C9: refolding the result of folding `3w8 + 4w8`. -/
theorem fold_idempotent_witness :
    ∃ d2, fold ⟨true, true⟩ (.constant 7 (.bits 8 false) 10 true)
      = .ok (.constant 7 (.bits 8 false) 10 true, d2) :=
  fold_idempotent ⟨true, true⟩
    (.binop .add (.constant 3 (.bits 8 false) 10 false)
      (.constant 4 (.bits 8 false) 10 false))
    (.constant 7 (.bits 8 false) 10 true) _ rfl

/-- C3 counterexample: the claim states every value stored in the memo is
fully constant, in particular for the entries recorded by the
`LAnd`/`LOr` short-circuit handlers and the shift-by-zero handler.  But
those handlers record a raw operand: folding `true && x` memoizes the
non-constant `PathExpression x` (twice: once for the node, once for the
original), and folding `y << 0` memoizes the non-constant
`PathExpression y`. -/
theorem memo_nonconstant_counterexample :
    fold ⟨true, true⟩ (.land (.boolLiteral true) (.pathExpression "x"))
      = .ok (.pathExpression "x",
          ⟨[(.land (.boolLiteral true) (.pathExpression "x"), .pathExpression "x"),
            (.land (.boolLiteral true) (.pathExpression "x"), .pathExpression "x")], 0, 0⟩)
    ∧ fold ⟨true, true⟩ (.shift true (.pathExpression "y") (.constant 0 .infInt 10 false))
      = .ok (.pathExpression "y",
          ⟨[(.shift true (.pathExpression "y") (.constant 0 .infInt 10 false),
             .pathExpression "y"),
            (.shift true (.pathExpression "y") (.constant 0 .infInt 10 false),
             .pathExpression "y")], 0, 0⟩)
    ∧ isCst (.pathExpression "x") = false
    ∧ isCst (.pathExpression "y") = false :=
  ⟨rfl, rfl, rfl, rfl⟩

end ConstantFolding
